import Mathlib

/- Verification of the surgical YAML value updater of stacklok/releaseo
   (internal/files/yaml.go, goccy-based implementation).  Go strings are
   modelled as lists of characters (`Str`); the version strings, keys and
   file contents the updater manipulates are ASCII, so the character-level
   model coincides with Go's byte-level one on all inputs of interest.

   The regular expressions the source builds are all of a fixed shape
   (a QuoteMeta-escaped literal key, `:`, `\s*`, then a literal value with
   quote / end-of-line / comment context), so each compiled pattern is
   embedded as a direct matcher with Go's leftmost-first greedy semantics:
   positions are tried left to right, `\s*` is greedy with backtracking
   against the literal that follows, and `$` under `(?m)` accepts end of
   text or a position right before a newline. -/

abbrev Str := List Char

/-- Character-list view of a Lean string literal, used to write concrete
Go strings in statements. -/
def lit (s : String) : Str := s.data

deriving instance DecidableEq for Except

/-- Go regexp's Perl class `\s`, i.e. `[\t\n\f\r ]`. -/
def isSpaceChar (c : Char) : Bool :=
  c = ' ' || c = '\t' || c = '\n' || c = '\x0c' || c = '\r'

/-- Go regexp's Perl class `\d`, i.e. `[0-9]`. -/
def isDigitChar (c : Char) : Bool :=
  '0' ≤ c && c ≤ '9'

/-- The character class `[a-zA-Z0-9.]` of the prerelease part of the
version patterns in findEmbeddedVersion (yaml.go:409-411). -/
def isPreChar (c : Char) : Bool :=
  ('a' ≤ c && c ≤ 'z') || ('A' ≤ c && c ≤ 'Z') || ('0' ≤ c && c ≤ '9') || c = '.'

/-- Printable ASCII other than the double quote and the backslash: the
characters Go's verb `%q` renders verbatim. -/
def plainChar (c : Char) : Bool :=
  ' ' ≤ c && c ≤ '~' && c ≠ '"' && c ≠ '\\'

/-- Go `strings.HasPrefix s p` on character lists. -/
def startsWithL : Str → Str → Bool
  | _, [] => true
  | [], _ :: _ => false
  | c :: s, d :: p => c = d && startsWithL s p

/-- Go `strings.Contains s sub` on character lists. -/
def containsL : Str → Str → Bool
  | [], sub => startsWithL [] sub
  | c :: s, sub => startsWithL (c :: s) sub || containsL s sub

/-- Go `strings.Replace s old new 1`: the leftmost occurrence of `old`
(the empty occurrence at the start when `old` is empty) replaced by
`new`; `s` unchanged when `old` does not occur. -/
def replaceOnce : Str → Str → Str → Str
  | [], old, new => if startsWithL [] old then new else []
  | c :: s, old, new =>
    if startsWithL (c :: s) old then new ++ (c :: s).drop old.length
    else c :: replaceOnce s old new

/-- Greedy `\d+` at the head of the input: the maximal nonempty digit run
and the remainder. -/
def digits1 (s : Str) : Option (Str × Str) :=
  let d := s.takeWhile isDigitChar
  if d.isEmpty then none else some (d, s.drop d.length)

/-- Greedy match of `\d+\.\d+\.\d+(?:-[a-zA-Z0-9.]+)?` at the head of the
input (the capture group of both patterns of findEmbeddedVersion,
yaml.go:407-412): the matched text and the remainder. -/
def matchSemver (s : Str) : Option (Str × Str) :=
  match digits1 s with
  | none => none
  | some (d1, r1) =>
    match r1 with
    | [] => none
    | c1 :: r2 =>
      if c1 = '.' then
        match digits1 r2 with
        | none => none
        | some (d2, r3) =>
          match r3 with
          | [] => none
          | c2 :: r4 =>
            if c2 = '.' then
              match digits1 r4 with
              | none => none
              | some (d3, r5) =>
                let core := d1 ++ '.' :: d2 ++ '.' :: d3
                match r5 with
                | [] => some (core, r5)
                | c3 :: r6 =>
                  if c3 = '-' then
                    let pre := r6.takeWhile isPreChar
                    if pre.isEmpty then some (core, r5)
                    else some (core ++ '-' :: pre, r6.drop pre.length)
                  else some (core, r5)
            else none
      else none

/-- The image-tag pattern `:` ++ QuoteMeta(pfx) ++ `(semver)`
(yaml.go:409) tried at the head of the given suffix: the full matched
text on success. -/
def colonMatchAt (pfx s : Str) : Option Str :=
  match s with
  | [] => none
  | c :: s1 =>
    if c = ':' && startsWithL s1 pfx then
      match matchSemver (s1.drop pfx.length) with
      | some (m, _) => some (':' :: (pfx ++ m))
      | none => none
    else none

/-- Leftmost match of the image-tag pattern in the value, as Go
`FindStringSubmatch` returns it. -/
def findColonMatch (pfx : Str) : Str → Option Str
  | [] => none
  | c :: s =>
    match colonMatchAt pfx (c :: s) with
    | some m => some m
    | none => findColonMatch pfx s

/-- The end-of-string pattern QuoteMeta(pfx) ++ `(semver)$` (yaml.go:411)
tried at the head of the given suffix. -/
def endMatchAt (pfx s : Str) : Option Str :=
  if startsWithL s pfx then
    match matchSemver (s.drop pfx.length) with
    | some (m, r) => if r = [] then some (pfx ++ m) else none
    | none => none
  else none

/-- Leftmost match of the end-of-string pattern in the value. -/
def findEndMatch (pfx : Str) : Str → Option Str
  | [] => none
  | c :: s =>
    match endMatchAt pfx (c :: s) with
    | some m => some m
    | none => findEndMatch pfx s

/-- findEmbeddedVersion (yaml.go:404-426): the two patterns are tried in
source order (image-tag first, end-of-string second); a match that starts
with a colon has the colon stripped; the empty string means no embedded
version. -/
def findEmbeddedVersion (value pfx : Str) : Str :=
  match findColonMatch pfx value with
  | some m => if startsWithL m [':'] then m.drop 1 else m
  | none =>
    match findEndMatch pfx value with
    | some m => if startsWithL m [':'] then m.drop 1 else m
    | none => []

/-- Specification-side shape of an embedded semantic version: three
dot-separated nonempty digit runs with an optional `-prerelease` suffix
over `[a-zA-Z0-9.]`. -/
def IsSemverShape (m : Str) : Prop :=
  ∃ d1 d2 d3 rest, m = d1 ++ '.' :: d2 ++ '.' :: d3 ++ rest ∧
    d1 ≠ [] ∧ d2 ≠ [] ∧ d3 ≠ [] ∧
    (∀ c ∈ d1, isDigitChar c = true) ∧ (∀ c ∈ d2, isDigitChar c = true) ∧
    (∀ c ∈ d3, isDigitChar c = true) ∧
    (rest = [] ∨ ∃ p, rest = '-' :: p ∧ p ≠ [] ∧ ∀ c ∈ p, isPreChar c = true)

/-- Specification-side condition for a detectable embedded version: a
semver-shaped substring directly preceded by the prefix, the whole either
immediately preceded by a colon or located at the very end of the value. -/
def HasEmbedded (value pfx : Str) : Prop :=
  (∃ u m w, IsSemverShape m ∧ value = u ++ ':' :: (pfx ++ m) ++ w) ∨
  (∃ u m, IsSemverShape m ∧ value = u ++ pfx ++ m)

/-- Lower-case hexadecimal digit, as Go strconv uses. -/
def hexDigitChar (n : Nat) : Char :=
  if n < 10 then Char.ofNat ('0'.toNat + n) else Char.ofNat ('a'.toNat + (n - 10))

/-- One character as Go's verb `%q` (strconv.Quote) renders it.  Printable
ASCII is kept (quote and backslash escaped); the named control escapes and
the `\xhh` form are modelled; a character above ASCII is kept verbatim
(strconv's unicode.IsPrint classification is not modelled — the claims only
apply `%q` to printable-ASCII arguments). -/
def quoteChar (c : Char) : Str :=
  if c = '"' then ['\\', '"']
  else if c = '\\' then ['\\', '\\']
  else if ' ' ≤ c && c ≤ '~' then [c]
  else if c = '\x07' then ['\\', 'a']
  else if c = '\x08' then ['\\', 'b']
  else if c = '\x0c' then ['\\', 'f']
  else if c = '\n' then ['\\', 'n']
  else if c = '\r' then ['\\', 'r']
  else if c = '\t' then ['\\', 't']
  else if c = '\x0b' then ['\\', 'v']
  else if c.toNat < 256 then ['\\', 'x', hexDigitChar (c.toNat / 16), hexDigitChar (c.toNat % 16)]
  else [c]

/-- Go's verb `%q` on a whole string. -/
def goQuote (s : Str) : Str :=
  '"' :: (s.map quoteChar).flatten ++ ['"']

/-- Whether `$` of a `(?m)` pattern matches before this suffix: end of
text or right before a newline. -/
def atEol : Str → Bool
  | [] => true
  | c :: _ => c = '\n'

/-- One match of a replacement-rule pattern: capture group 1 (the key, the
colon and the whitespace after it), capture group 3 (trailing whitespace,
with the `#` for the comment rule; empty for the other rules) and the
input remainder after the matched text. -/
structure RuleMatch where
  g1 : Str
  g3 : Str
  rest : Str
deriving DecidableEq

/-- Character class of a `$name` reference in Go regexp's Expand: letters,
digits and underscore (ASCII, in line with this file's scope; Go also
accepts non-ASCII Unicode letters and digits). -/
def isNameChar (c : Char) : Bool :=
  ('a' ≤ c && c ≤ 'z') || ('A' ≤ c && c ≤ 'Z') || ('0' ≤ c && c ≤ '9') || c = '_'

/-- The numeric value of an all-digit reference name. -/
def natOfDigits (name : Str) : Nat :=
  name.foldl (fun n c => n * 10 + (c.toNat - '0'.toNat)) 0

/-- Resolution of one `$` reference against the capture groups of a match
(group 0, the whole match, first): an all-digit name selects the group of
that index, out of range giving the empty string; any other name is a
named-group lookup, and as no pattern of this file declares named groups
it gives the empty string.  (Go additionally turns an index too large for
int into a named lookup; both read back empty here, so the overflow guard
needs no modelling.) -/
def expandRefL (gs : List Str) (name : Str) : Str :=
  if name.all isDigitChar then gs.getD (natOfDigits name) [] else []

/-- Go regexp's extract: the reference name at the head of the text
following a `$`, either braced or the longest nonempty run of name
characters, together with the text after the reference; `none` when
malformed (empty name, or a brace without its closing brace). -/
def extractRef : Str → Option (Str × Str)
  | [] => none
  | c :: t =>
    if c = '{' then
      if (t.takeWhile isNameChar).isEmpty then none
      else
        match t.drop (t.takeWhile isNameChar).length with
        | d :: rest => if d = '}' then some (t.takeWhile isNameChar, rest) else none
        | [] => none
    else
      if ((c :: t).takeWhile isNameChar).isEmpty then none
      else some ((c :: t).takeWhile isNameChar,
        (c :: t).drop ((c :: t).takeWhile isNameChar).length)

/-- Fuel-indexed core of Go regexp's Expand over a replacement template:
`$$` yields a literal `$`, a well-formed `$name` or `{name}`-braced
reference is resolved against the capture groups, and a malformed `$` is
kept literally.  The fuel only bounds the recursion; at least one
character is consumed per step, so `expandTemplate` below never exhausts
it. -/
def expandTemplateGo (gs : List Str) : Nat → Str → Str
  | _, [] => []
  | 0, s => s
  | n + 1, c :: t =>
    if c = '$' then
      match t with
      | c2 :: t2 =>
        if c2 = '$' then '$' :: expandTemplateGo gs n t2
        else
          match extractRef t with
          | some (name, rest) => expandRefL gs name ++ expandTemplateGo gs n rest
          | none => '$' :: expandTemplateGo gs n t
      | [] => ['$']
    else c :: expandTemplateGo gs n t

/-- Go regexp's Expand of a replacement template against the capture
groups of a match (whole match first), as ReplaceAllString applies it to
the replacement string handed to it. -/
def expandTemplate (gs : List Str) (template : Str) : Str :=
  expandTemplateGo gs template.length template

/-- Greedy `\s*` with backtracking: try consuming `k` whitespace
characters (at most the maximal run), largest first, until the
continuation succeeds on the remainder — Go's leftmost-first semantics
for `\s*` followed by a literal. -/
def wsTry (tail : Str → Option (Str × Str)) (s : Str) : Nat → Option (Str × Str × Str)
  | 0 =>
    match tail s with
    | some p => some ([], p.1, p.2)
    | none => none
  | k + 1 =>
    match tail (s.drop (k + 1)) with
    | some p => some (s.take (k + 1), p.1, p.2)
    | none => wsTry tail s k

/-- Greedy `(\s*)$` with backtracking: the longest whitespace run after
which `$` matches, with the remainder. -/
def eolScan (s : Str) : Nat → Option (Str × Str)
  | 0 => if atEol s then some ([], s) else none
  | k + 1 =>
    if atEol (s.drop (k + 1)) then some (s.take (k + 1), s.drop (k + 1))
    else eolScan s k

/-- Rule tail `"old"` (or `'old'`): a quote, the literal old value and the
closing quote.  Returns capture group 3 (empty) and the remainder. -/
def quotedTail (q : Char) (old : Str) (s : Str) : Option (Str × Str) :=
  match s with
  | c :: s1 =>
    if c = q && startsWithL s1 (old ++ [q]) then some ([], s1.drop (old.length + 1))
    else none
  | [] => none

/-- Rule tail `(old)(\s*)$` of the unquoted-end-of-line rule. -/
def eolTail (old : Str) (s : Str) : Option (Str × Str) :=
  if startsWithL s old then
    eolScan (s.drop old.length) ((s.drop old.length).takeWhile isSpaceChar).length
  else none

/-- Rule tail `(old)(\s*#)` of the unquoted-before-comment rule. -/
def cmtTail (old : Str) (s : Str) : Option (Str × Str) :=
  if startsWithL s old then
    let s1 := s.drop old.length
    let run := s1.takeWhile isSpaceChar
    match s1.drop run.length with
    | c :: rest => if c = '#' then some (run ++ ['#'], rest) else none
    | [] => none
  else none

/-- Tail of the fallback pattern `(key:\s*)old`: just the literal old
value. -/
def fbTail (old : Str) (s : Str) : Option (Str × Str) :=
  if startsWithL s old then some ([], s.drop old.length) else none

/-- The common head `(key:\s*)` of every pattern of surgicalReplace, tried
at the head of the given suffix, continued by a rule-specific tail. -/
def keyColonWs (key : Str) (tail : Str → Option (Str × Str)) (s : Str) : Option RuleMatch :=
  if startsWithL s (key ++ [':']) then
    let s1 := s.drop (key.length + 1)
    match wsTry tail s1 (s1.takeWhile isSpaceChar).length with
    | some (ws, g3, rest) => some ⟨key ++ ':' :: ws, g3, rest⟩
    | none => none
  else none

/-- replacementRule (yaml.go:316-324): a name, the compiled pattern tried
at a position of the input (`matchAt key oldValue`), and the replacement
template string built from the key and the new value
(`replacement key newValue`), to which ReplaceAllString applies Expand.
`groups` is not a field of the Go struct: it gives the capture groups of
a match of this rule's pattern (whole match first), the match data Go's
ReplaceAllString hands to Expand. -/
structure ReplacementRule where
  name : Str
  matchAt : Str → Str → Str → Option RuleMatch
  replacement : Str → Str → Str
  groups : Str → RuleMatch → List Str

/-- The double-quoted rule: pattern `(key:\s*)"(old)"`, replacement
template `${1}"new"` (yaml.go:331-341); group 1 is the key, the colon and
the whitespace, group 2 the old value. -/
def doubleQuoted : ReplacementRule where
  name := lit "double-quoted"
  matchAt := fun key old => keyColonWs key (quotedTail '"' old)
  replacement := fun _key new => lit "${1}" ++ ('"' :: new ++ ['"'])
  groups := fun old m => [m.g1 ++ '"' :: old ++ ['"'], m.g1, old]

/-- The single-quoted rule: pattern `(key:\s*)'(old)'`, replacement
template `${1}'new'` (yaml.go:342-351). -/
def singleQuoted : ReplacementRule where
  name := lit "single-quoted"
  matchAt := fun key old => keyColonWs key (quotedTail '\'' old)
  replacement := fun _key new => lit "${1}" ++ ('\'' :: new ++ ['\''])
  groups := fun old m => [m.g1 ++ '\'' :: old ++ ['\''], m.g1, old]

/-- The unquoted end-of-line rule: pattern `(key:\s*)(old)(\s*)$`,
replacement template `${1}new${3}` (yaml.go:352-361); group 3 is the
trailing whitespace. -/
def unquotedEol : ReplacementRule where
  name := lit "unquoted-eol"
  matchAt := fun key old => keyColonWs key (eolTail old)
  replacement := fun _key new => lit "${1}" ++ (new ++ lit "${3}")
  groups := fun old m => [m.g1 ++ old ++ m.g3, m.g1, old, m.g3]

/-- The unquoted before-comment rule: pattern `(key:\s*)(old)(\s*#)`,
replacement template `${1}new${3}` (yaml.go:362-371); group 3 is the
whitespace with the `#`. -/
def unquotedComment : ReplacementRule where
  name := lit "unquoted-with-comment"
  matchAt := fun key old => keyColonWs key (cmtTail old)
  replacement := fun _key new => lit "${1}" ++ (new ++ lit "${3}")
  groups := fun old m => [m.g1 ++ old ++ m.g3, m.g1, old, m.g3]

/-- One substitution by a rule (yaml.go:385): Go's Expand of the rule's
replacement template against the capture groups of the match. -/
def ruleApply (r : ReplacementRule) (key old new : Str) (m : RuleMatch) : Str :=
  expandTemplate (r.groups old m) (r.replacement key new)

/-- replacementRules (yaml.go:330-372): the four rules in source order. -/
def replacementRules : List ReplacementRule :=
  [doubleQuoted, singleQuoted, unquotedEol, unquotedComment]

/-- The fallback pattern `(key:\s*)old` of surgicalReplace
(yaml.go:392). -/
def fallbackMatchAt (key old : Str) : Str → Option RuleMatch :=
  keyColonWs key (fbTail old)

/-- The fallback substitution: Go's Expand of the template `${1}new`
(yaml.go:394) against the groups of a fallback-pattern match, which are
the whole match and group 1 (the key, the colon and the whitespace). -/
def fallbackApply (_key old new : Str) (m : RuleMatch) : Str :=
  expandTemplate [m.g1 ++ old, m.g1] (lit "${1}" ++ new)

/-- Identifier of the five compiled patterns surgicalReplace may apply:
the four table rules and the fallback. -/
inductive RuleId
  | dq
  | sq
  | eol
  | cmt
  | fb
deriving DecidableEq, Fintype

/-- The matcher of each pattern, by identifier. -/
def ruleMatchAt : RuleId → Str → Str → Str → Option RuleMatch
  | .dq => doubleQuoted.matchAt
  | .sq => singleQuoted.matchAt
  | .eol => unquotedEol.matchAt
  | .cmt => unquotedComment.matchAt
  | .fb => fallbackMatchAt

/-- The substitution of each pattern, by identifier. -/
def ruleRepl : RuleId → Str → Str → Str → RuleMatch → Str
  | .dq => ruleApply doubleQuoted
  | .sq => ruleApply singleQuoted
  | .eol => ruleApply unquotedEol
  | .cmt => ruleApply unquotedComment
  | .fb => fallbackApply

/-- The text matched by each pattern (its capture group 0), rebuilt from
the match data and the old value. -/
def ruleText : RuleId → Str → RuleMatch → Str
  | .dq, old, m => m.g1 ++ '"' :: old ++ ['"']
  | .sq, old, m => m.g1 ++ '\'' :: old ++ ['\'']
  | .eol, old, m => m.g1 ++ old ++ m.g3
  | .cmt, old, m => m.g1 ++ old ++ m.g3
  | .fb, old, m => m.g1 ++ old

/-- Go `Regexp.MatchString`: some position of the input (all suffixes,
the empty one included) matches the pattern. -/
def hasMatchL (mAt : Str → Option RuleMatch) : Str → Bool
  | [] => (mAt []).isSome
  | c :: s => (mAt (c :: s)).isSome || hasMatchL mAt s

/-- Fuel-indexed core of Go `Regexp.ReplaceAllString`: successive
non-overlapping leftmost matches replaced, scanning left to right.  The
fuel only bounds the recursion; every pattern of this file consumes at
least one character per match, so `replaceAllL` below never exhausts it. -/
def replaceAllGo (mAt : Str → Option RuleMatch) (rep : RuleMatch → Str) : Nat → Str → Str
  | _, [] => []
  | 0, s => s
  | n + 1, c :: s =>
    match mAt (c :: s) with
    | some m => rep m ++ replaceAllGo mAt rep n m.rest
    | none => c :: replaceAllGo mAt rep n s

/-- Go `Regexp.ReplaceAllString` for the patterns of this file. -/
def replaceAllL (mAt : Str → Option RuleMatch) (rep : RuleMatch → Str) (s : Str) : Str :=
  replaceAllGo mAt rep s.length s

/-- The rule loop of surgicalReplace (yaml.go:381-388): the first rule
whose pattern matches the content is applied to every match. -/
def tryRulesL : List ReplacementRule → Str → Str → Str → Str → Option Str
  | [], _, _, _, _ => none
  | r :: rs, key, old, new, content =>
    if hasMatchL (r.matchAt key old) content
    then some (replaceAllL (r.matchAt key old) (ruleApply r key old new) content)
    else tryRulesL rs key old new content

/-- The error of surgicalReplace when nothing matched (yaml.go:398). -/
def couldNotFindMsg (old key : Str) : Str :=
  lit "could not find value " ++ goQuote old ++ lit " for key " ++ goQuote key ++
    lit " to replace"

/-- surgicalReplace (yaml.go:377-399): the rule table first, then the
key-scoped fallback, else the error. -/
def surgicalReplace (data key old new : Str) : Except Str Str :=
  match tryRulesL replacementRules key old new data with
  | some result => .ok result
  | none =>
    if hasMatchL (fallbackMatchAt key old) data
    then .ok (replaceAllL (fallbackMatchAt key old) (fallbackApply key old new) data)
    else .error (couldNotFindMsg old key)

/-- Fuel-indexed core of `regexp.MustCompile("\[\d+\]").ReplaceAllString(path, "")`
(yaml.go:303-304): leftmost non-overlapping bracketed digit runs removed. -/
def removeIndicesGo : Nat → Str → Str
  | _, [] => []
  | 0, s => s
  | n + 1, c :: s =>
    if c = '[' then
      let d := s.takeWhile isDigitChar
      if d.isEmpty then c :: removeIndicesGo n s
      else
        match s.drop d.length with
        | ']' :: rest => removeIndicesGo n rest
        | _ => c :: removeIndicesGo n s
    else c :: removeIndicesGo n s

/-- All `[digits]` segments removed from a path. -/
def removeIndices (s : Str) : Str :=
  removeIndicesGo s.length s

/-- Go `strings.Split s "."` (yaml.go:307). -/
def splitOnDot : Str → List Str
  | [] => [[]]
  | c :: s =>
    if c = '.' then [] :: splitOnDot s
    else
      match splitOnDot s with
      | h :: t => (c :: h) :: t
      | [] => [[c]]

/-- extractKeyFromPath (yaml.go:301-312): array indices removed, the last
dot-component returned. -/
def extractKeyFromPath (path : Str) : Str :=
  let cleanPath := removeIndices path
  let parts := splitOnDot cleanPath
  match parts.getLast? with
  | some last => last
  | none => path

/-- The version-mismatch error text of UpdateYAMLFile (yaml.go:266-270),
with `%s` verbatim and `%q` via `goQuote`. -/
def versionMismatchMsg (file path oldVersionStr embedded valueAtPath : Str) : Str :=
  lit "version mismatch in " ++ file ++ lit " at path " ++ path ++
    lit ": expected to find " ++ goQuote oldVersionStr ++ lit " but found " ++
    goQuote embedded ++ lit " in value " ++ goQuote valueAtPath ++
    lit ". This usually means the file was not updated in a previous release. " ++
    lit "Please manually update the version in this file to " ++
    goQuote oldVersionStr ++ lit " before running releaseo"

/-- The surgical-replacement step of UpdateYAMLFile (yaml.go:281-284): the
result of surgicalReplace, a failure wrapped with the path. -/
def replaceStage (path data key oldValue newValue : Str) : Except Str Str :=
  match surgicalReplace data key oldValue newValue with
  | .ok newData => .ok newData
  | .error e => .error (lit "replacing value at path " ++ path ++ lit ": " ++ e)

/-- UpdateYAMLFile after the located value is in hand (yaml.go:253-291):
the three-way branch on the located value, then the surgical replacement.
A `.ok` result is the new file content to be written; on `.error` nothing
is written. -/
def updateYAMLContent (file path pfx cur new valueAtPath data : Str) : Except Str Str :=
  let oldVersionStr := pfx ++ cur
  let newVersionStr := pfx ++ new
  if containsL valueAtPath oldVersionStr then
    replaceStage path data (extractKeyFromPath path) valueAtPath
      (replaceOnce valueAtPath oldVersionStr newVersionStr)
  else
    let embedded := findEmbeddedVersion valueAtPath pfx
    if embedded ≠ [] then
      .error (versionMismatchMsg file path oldVersionStr embedded valueAtPath)
    else
      replaceStage path data (extractKeyFromPath path) valueAtPath newVersionStr

/-- convertToYAMLPath (yaml.go:434-451): empty and leading-dot addresses
rejected, a `$`-prefixed address returned verbatim, else `$.` prepended. -/
def convertToYAMLPath (path : Str) : Except Str Str :=
  if path = [] then .error (lit "path cannot be empty")
  else if startsWithL path ['.'] then
    .error (lit "path cannot start with '.' (got " ++ goQuote path ++
      lit ") - use " ++ goQuote (path.drop 1) ++ lit " instead")
  else if startsWithL path ['$'] then .ok path
  else .ok ('$' :: '.' :: path)

/-- UpdateYAMLFile (yaml.go:229-292) with the goccy yaml library's path
construction and read (yaml.go:243-251) abstracted as the external oracle
`locate` (it is third-party code, not part of this repository): `none`
stands for its failure, collapsed to the path-not-found wrapper.  Reading
the file is the `data` argument; a `.ok` result is the content written
back. -/
def updateYAMLFileModel (locate : Str → Str → Option Str)
    (file path pfx cur new data : Str) : Except Str Str :=
  match convertToYAMLPath path with
  | .error e => .error (lit "invalid path " ++ path ++ lit ": " ++ e)
  | .ok yamlPath =>
    match locate yamlPath data with
    | none => .error (lit "path " ++ path ++ lit " not found in " ++ file)
    | some valueAtPath => updateYAMLContent file path pfx cur new valueAtPath data

/- ------------------------------------------------------------------ -/
/- Lemmas about the string primitives.                                -/
/- ------------------------------------------------------------------ -/

theorem startsWithL_iff (s p : Str) : startsWithL s p = true ↔ ∃ r, s = p ++ r := by
  induction p generalizing s with
  | nil => simp [startsWithL]
  | cons d p ih =>
    cases s with
    | nil => simp [startsWithL]
    | cons c s =>
      simp only [startsWithL, Bool.and_eq_true, decide_eq_true_eq, ih, List.cons_append,
        List.cons.injEq]
      constructor
      · rintro ⟨rfl, r, rfl⟩
        exact ⟨r, rfl, rfl⟩
      · rintro ⟨r, rfl, rfl⟩
        exact ⟨rfl, r, rfl⟩

theorem startsWithL_of_append (p r : Str) : startsWithL (p ++ r) p = true :=
  (startsWithL_iff _ _).2 ⟨r, rfl⟩

theorem startsWithL_exists {s p : Str} (h : startsWithL s p = true) :
    s = p ++ s.drop p.length := by
  obtain ⟨r, rfl⟩ := (startsWithL_iff s p).1 h
  rw [List.drop_left]

theorem containsL_iff (s sub : Str) : containsL s sub = true ↔ ∃ u w, s = u ++ sub ++ w := by
  induction s with
  | nil =>
    cases sub with
    | nil => exact ⟨fun _ => ⟨[], [], rfl⟩, fun _ => rfl⟩
    | cons d p =>
      simp only [containsL, startsWithL]
      constructor
      · intro h
        exact absurd h (by simp)
      · rintro ⟨u, w, h⟩
        exact absurd h.symm (by simp)
  | cons c s ih =>
    simp only [containsL, Bool.or_eq_true, startsWithL_iff, ih]
    constructor
    · rintro (⟨r, hr⟩ | ⟨u, w, rfl⟩)
      · exact ⟨[], r, by simpa using hr⟩
      · exact ⟨c :: u, w, rfl⟩
    · rintro ⟨u, w, h⟩
      cases u with
      | nil => exact .inl ⟨w, by simpa using h⟩
      | cons c' u =>
        rw [List.cons_append, List.cons_append, List.cons.injEq] at h
        exact .inr ⟨u, w, h.2⟩

theorem replaceOnce_self (s old : Str) : replaceOnce s old old = s := by
  induction s with
  | nil => cases old <;> simp [replaceOnce, startsWithL]
  | cons c s ih =>
    by_cases h : startsWithL (c :: s) old = true
    · simp only [replaceOnce, h, if_true]
      exact (startsWithL_exists h).symm
    · simp only [replaceOnce, h, if_false, Bool.false_eq_true, ih]

theorem replaceOnce_first {s old : Str} (new : Str) (h : containsL s old = true) :
    ∃ a b, s = a ++ old ++ b ∧ replaceOnce s old new = a ++ new ++ b ∧
      ∀ a' b', s = a' ++ old ++ b' → a.length ≤ a'.length := by
  induction s with
  | nil =>
    cases old with
    | nil => exact ⟨[], [], rfl, by simp [replaceOnce, startsWithL], fun _ _ _ => Nat.zero_le _⟩
    | cons d p => simp [containsL, startsWithL] at h
  | cons c s ih =>
    by_cases hs : startsWithL (c :: s) old = true
    · refine ⟨[], (c :: s).drop old.length, ?_, ?_, fun _ _ _ => Nat.zero_le _⟩
      · simpa using startsWithL_exists hs
      · simp [replaceOnce, hs]
    · have hcont : containsL s old = true := by
        have := h
        simp only [containsL, Bool.or_eq_true] at this
        exact this.resolve_left (by simp [hs])
      obtain ⟨a, b, he, hr, hmin⟩ := ih hcont
      refine ⟨c :: a, b, by simp [he], ?_, ?_⟩
      · simp [replaceOnce, hs, hr]
      · intro a' b' h'
        cases a' with
        | nil =>
          exact absurd ((startsWithL_iff _ _).2 ⟨b', by simpa using h'⟩) (by simp [hs])
        | cons c' a'' =>
          rw [List.cons_append, List.cons_append, List.cons.injEq] at h'
          simpa using Nat.succ_le_succ (hmin a'' b' h'.2)

/- ------------------------------------------------------------------ -/
/- Lemmas about takeWhile-based greedy runs.                          -/
/- ------------------------------------------------------------------ -/

theorem takeWhile_all {p : Char → Bool} {d : Str} (hd : ∀ c ∈ d, p c = true) :
    d.takeWhile p = d := by
  induction d with
  | nil => rfl
  | cons a d ih =>
    rw [List.takeWhile_cons, if_pos (hd a (by simp)), ih fun c hc => hd c (by simp [hc])]

theorem takeWhile_append_stop {p : Char → Bool} {d : Str} (hd : ∀ c ∈ d, p c = true)
    {x : Char} (hx : p x = false) (r : Str) : (d ++ x :: r).takeWhile p = d := by
  induction d with
  | nil => simp [List.takeWhile_cons, hx]
  | cons a d ih =>
    rw [List.cons_append, List.takeWhile_cons, if_pos (hd a (by simp)),
      ih fun c hc => hd c (by simp [hc])]

theorem drop_takeWhile_length (p : Char → Bool) (l : Str) :
    l.drop (l.takeWhile p).length = l.dropWhile p := by
  induction l with
  | nil => rfl
  | cons a l ih =>
    by_cases h : p a = true
    · simpa [List.takeWhile_cons, List.dropWhile_cons, h] using ih
    · simp [List.takeWhile_cons, List.dropWhile_cons, h]

/- ------------------------------------------------------------------ -/
/- Lemmas about the embedded-version matcher.                         -/
/- ------------------------------------------------------------------ -/

theorem digits1_some {s d r : Str} (h : digits1 s = some (d, r)) :
    s = d ++ r ∧ d ≠ [] ∧ ∀ c ∈ d, isDigitChar c = true := by
  unfold digits1 at h
  by_cases he : (s.takeWhile isDigitChar).isEmpty
  · simp [he] at h
  · simp only [he, Bool.false_eq_true, if_false, Option.some.injEq, Prod.mk.injEq] at h
    obtain ⟨rfl, rfl⟩ := h
    refine ⟨?_, by simpa using he, fun c hc => List.mem_takeWhile_imp hc⟩
    rw [drop_takeWhile_length, List.takeWhile_append_dropWhile]

theorem digits1_append_stop {d : Str} (hd : ∀ c ∈ d, isDigitChar c = true) (hne : d ≠ [])
    {x : Char} (hx : isDigitChar x = false) (r : Str) :
    digits1 (d ++ x :: r) = some (d, x :: r) := by
  unfold digits1
  rw [takeWhile_append_stop hd hx]
  simp [hne, List.drop_left]

theorem digits1_exact {d : Str} (hd : ∀ c ∈ d, isDigitChar c = true) (hne : d ≠ []) :
    digits1 d = some (d, []) := by
  unfold digits1
  rw [takeWhile_all hd]
  simp [hne]

theorem digits1_isSome_of_head {x : Char} (hx : isDigitChar x = true) (t : Str) :
    (digits1 (x :: t)).isSome = true := by
  unfold digits1
  simp [List.takeWhile_cons, hx]


theorem IsSemverShape.ne_nil {m : Str} (h : IsSemverShape m) : m ≠ [] := by
  obtain ⟨d1, d2, d3, rest, rfl, hne1, -⟩ := h
  cases d1 with
  | nil => exact absurd rfl hne1
  | cons x d => simp

theorem matchSemver_sound {s m r : Str} (h : matchSemver s = some (m, r)) :
    s = m ++ r ∧ IsSemverShape m := by
  unfold matchSemver at h
  cases h1 : digits1 s with
  | none => rw [h1] at h; exact absurd h (by simp)
  | some p1 =>
    rw [h1] at h
    obtain ⟨d1, r1⟩ := p1
    obtain ⟨he1, hne1, hd1⟩ := digits1_some h1
    simp only [] at h
    cases r1 with
    | nil => exact absurd h (by simp)
    | cons c1 r2 =>
      simp only [] at h
      rcases eq_or_ne c1 '.' with rfl | hc1
      case inr => rw [if_neg hc1] at h; exact absurd h (by simp)
      rw [if_pos rfl] at h
      cases h2 : digits1 r2 with
      | none => rw [h2] at h; exact absurd h (by simp)
      | some p2 =>
        rw [h2] at h
        obtain ⟨d2, r3⟩ := p2
        obtain ⟨he2, hne2, hd2⟩ := digits1_some h2
        simp only [] at h
        cases r3 with
        | nil => exact absurd h (by simp)
        | cons c2 r4 =>
          simp only [] at h
          rcases eq_or_ne c2 '.' with rfl | hc2
          case inr => rw [if_neg hc2] at h; exact absurd h (by simp)
          rw [if_pos rfl] at h
          cases h3 : digits1 r4 with
          | none => rw [h3] at h; exact absurd h (by simp)
          | some p3 =>
            rw [h3] at h
            obtain ⟨d3, r5⟩ := p3
            obtain ⟨he3, hne3, hd3⟩ := digits1_some h3
            simp only [] at h
            subst he1 he2 he3
            cases r5 with
            | nil =>
              simp only [Option.some.injEq, Prod.mk.injEq] at h
              obtain ⟨rfl, rfl⟩ := h
              exact ⟨by simp, d1, d2, d3, [], by simp, hne1, hne2, hne3, hd1, hd2, hd3,
                .inl rfl⟩
            | cons c3 r6 =>
              simp only [] at h
              rcases eq_or_ne c3 '-' with rfl | hc3
              case inr =>
                rw [if_neg hc3] at h
                simp only [Option.some.injEq, Prod.mk.injEq] at h
                obtain ⟨rfl, rfl⟩ := h
                exact ⟨by simp, d1, d2, d3, [], by simp, hne1, hne2, hne3, hd1, hd2, hd3,
                  .inl rfl⟩
              rw [if_pos rfl] at h
              by_cases hpre : (r6.takeWhile isPreChar).isEmpty = true
              · rw [if_pos hpre] at h
                simp only [Option.some.injEq, Prod.mk.injEq] at h
                obtain ⟨rfl, rfl⟩ := h
                exact ⟨by simp, d1, d2, d3, [], by simp, hne1, hne2, hne3, hd1, hd2, hd3,
                  .inl rfl⟩
              · rw [if_neg hpre] at h
                simp only [Option.some.injEq, Prod.mk.injEq] at h
                obtain ⟨rfl, rfl⟩ := h
                have hr6 : r6 = r6.takeWhile isPreChar ++
                    r6.drop (r6.takeWhile isPreChar).length := by
                  rw [drop_takeWhile_length, List.takeWhile_append_dropWhile]
                constructor
                · conv_lhs => rw [hr6]
                  simp
                · exact ⟨d1, d2, d3, '-' :: r6.takeWhile isPreChar, by simp, hne1, hne2,
                    hne3, hd1, hd2, hd3,
                    .inr ⟨_, rfl, by simpa using hpre, fun c hc => List.mem_takeWhile_imp hc⟩⟩

theorem matchSemver_exact {m : Str} (h : IsSemverShape m) : matchSemver m = some (m, []) := by
  obtain ⟨d1, d2, d3, rest, rfl, hne1, hne2, hne3, hd1, hd2, hd3, hrest⟩ := h
  unfold matchSemver
  rw [show d1 ++ '.' :: d2 ++ '.' :: d3 ++ rest
      = d1 ++ '.' :: (d2 ++ '.' :: (d3 ++ rest)) from by simp]
  rw [digits1_append_stop hd1 hne1 (by decide)]
  simp only []
  rw [if_pos trivial, digits1_append_stop hd2 hne2 (by decide)]
  simp only []
  rw [if_pos trivial]
  rcases hrest with rfl | ⟨p, rfl, hpne, hp⟩
  · rw [List.append_nil, digits1_exact hd3 hne3]
    simp
  · rw [digits1_append_stop hd3 hne3 (by decide)]
    simp only [takeWhile_all hp]
    have hpe : p.isEmpty = false := by
      cases p with
      | nil => exact absurd rfl hpne
      | cons a l => rfl
    simp [hpe, List.drop_length]

theorem matchSemver_isSome_append {m : Str} (h : IsSemverShape m) (tail : Str) :
    (matchSemver (m ++ tail)).isSome = true := by
  obtain ⟨d1, d2, d3, rest, rfl, hne1, hne2, hne3, hd1, hd2, hd3, hrest⟩ := h
  unfold matchSemver
  rw [show (d1 ++ '.' :: d2 ++ '.' :: d3 ++ rest) ++ tail
      = d1 ++ '.' :: (d2 ++ '.' :: (d3 ++ (rest ++ tail))) from by simp]
  rw [digits1_append_stop hd1 hne1 (by decide)]
  simp only []
  rw [if_pos trivial, digits1_append_stop hd2 hne2 (by decide)]
  simp only []
  rw [if_pos trivial]
  rcases hrest with rfl | ⟨p, rfl, hpne, hp⟩
  · rw [List.nil_append]
    obtain ⟨x, d3', rfl⟩ : ∃ x d3', d3 = x :: d3' := by
      cases d3 with
      | nil => exact absurd rfl hne3
      | cons x d3' => exact ⟨x, d3', rfl⟩
    rw [List.cons_append]
    cases h5 : digits1 (x :: (d3' ++ tail)) with
    | none =>
      have hsome := digits1_isSome_of_head (hd3 x (by simp)) (d3' ++ tail)
      rw [h5] at hsome
      exact absurd hsome (by simp)
    | some p5 =>
      obtain ⟨dx, r5⟩ := p5
      simp only []
      cases r5 with
      | nil => simp
      | cons c3 r6 =>
        simp only []
        rcases eq_or_ne c3 '-' with rfl | hc3
        · rw [if_pos rfl]
          by_cases hpre : (r6.takeWhile isPreChar).isEmpty = true
          · rw [if_pos hpre]; simp
          · rw [if_neg hpre]; simp
        · rw [if_neg hc3]; simp
  · rw [show ('-' :: p) ++ tail = '-' :: (p ++ tail) from rfl,
      digits1_append_stop hd3 hne3 (by decide)]
    simp only []
    rw [if_pos trivial]
    by_cases hpre : ((p ++ tail).takeWhile isPreChar).isEmpty = true
    · rw [if_pos hpre]; simp
    · rw [if_neg hpre]; simp

theorem colonMatchAt_sound {pfx s m0 : Str} (h : colonMatchAt pfx s = some m0) :
    ∃ sem r, IsSemverShape sem ∧ s = ':' :: (pfx ++ (sem ++ r)) ∧
      m0 = ':' :: (pfx ++ sem) := by
  unfold colonMatchAt at h
  cases s with
  | nil => exact absurd h (by simp)
  | cons c s1 =>
    simp only [] at h
    by_cases hc : (decide (c = ':') && startsWithL s1 pfx) = true
    case neg => rw [if_neg hc] at h; exact absurd h (by simp)
    rw [if_pos hc] at h
    rw [Bool.and_eq_true, decide_eq_true_eq] at hc
    obtain ⟨rfl, hsw⟩ := hc
    cases hm : matchSemver (s1.drop pfx.length) with
    | none => rw [hm] at h; exact absurd h (by simp)
    | some p =>
      obtain ⟨sem, r⟩ := p
      rw [hm] at h
      simp only [Option.some.injEq] at h
      obtain ⟨hs1, hshape⟩ := matchSemver_sound hm
      refine ⟨sem, r, hshape, ?_, h.symm⟩
      rw [startsWithL_exists hsw, hs1]

theorem colonMatchAt_isSome (pfx : Str) {sem : Str} (hsem : IsSemverShape sem) (tail : Str) :
    (colonMatchAt pfx (':' :: (pfx ++ (sem ++ tail)))).isSome = true := by
  unfold colonMatchAt
  simp only []
  rw [if_pos (by simp [startsWithL_of_append])]
  cases hm : matchSemver ((pfx ++ (sem ++ tail)).drop pfx.length) with
  | none =>
    rw [List.drop_left] at hm
    have hs := matchSemver_isSome_append hsem tail
    rw [hm] at hs
    exact absurd hs (by simp)
  | some p => simp

theorem findColonMatch_sound {pfx value m0 : Str} (h : findColonMatch pfx value = some m0) :
    ∃ u sem r, IsSemverShape sem ∧ value = u ++ ':' :: (pfx ++ (sem ++ r)) ∧
      m0 = ':' :: (pfx ++ sem) := by
  induction value with
  | nil => exact absurd h (by simp [findColonMatch])
  | cons c s ih =>
    simp only [findColonMatch] at h
    cases hc : colonMatchAt pfx (c :: s) with
    | some m =>
      rw [hc] at h
      simp only [Option.some.injEq] at h
      subst h
      obtain ⟨sem, r, hshape, hs, hm⟩ := colonMatchAt_sound hc
      exact ⟨[], sem, r, hshape, by simpa using hs, hm⟩
    | none =>
      rw [hc] at h
      obtain ⟨u, sem, r, hshape, hs, hm⟩ := ih h
      exact ⟨c :: u, sem, r, hshape, by simp [hs], hm⟩

theorem findColonMatch_isSome {pfx u sem w value : Str} (hsem : IsSemverShape sem)
    (hv : value = u ++ ':' :: (pfx ++ (sem ++ w))) :
    (findColonMatch pfx value).isSome = true := by
  subst hv
  induction u with
  | nil =>
    rw [List.nil_append]
    simp only [findColonMatch]
    cases hc : colonMatchAt pfx (':' :: (pfx ++ (sem ++ w))) with
    | some m => simp
    | none =>
      have hs := colonMatchAt_isSome pfx hsem w
      rw [hc] at hs
      exact absurd hs (by simp)
  | cons c u ih =>
    rw [List.cons_append]
    simp only [findColonMatch]
    cases hc : colonMatchAt pfx (c :: (u ++ ':' :: (pfx ++ (sem ++ w)))) with
    | some m => simp
    | none => exact ih

theorem endMatchAt_sound {pfx s m0 : Str} (h : endMatchAt pfx s = some m0) :
    ∃ sem, IsSemverShape sem ∧ s = pfx ++ sem ∧ m0 = pfx ++ sem := by
  unfold endMatchAt at h
  by_cases hsw : startsWithL s pfx = true
  case neg => rw [if_neg hsw] at h; exact absurd h (by simp)
  rw [if_pos hsw] at h
  cases hm : matchSemver (s.drop pfx.length) with
  | none => rw [hm] at h; exact absurd h (by simp)
  | some p =>
    obtain ⟨sem, r⟩ := p
    rw [hm] at h
    simp only [] at h
    by_cases hr : r = []
    case neg => rw [if_neg hr] at h; exact absurd h (by simp)
    subst hr
    rw [if_pos rfl] at h
    simp only [Option.some.injEq] at h
    obtain ⟨hs1, hshape⟩ := matchSemver_sound hm
    refine ⟨sem, hshape, ?_, h.symm⟩
    rw [startsWithL_exists hsw, hs1]
    simp

theorem endMatchAt_exact (pfx : Str) {sem : Str} (hsem : IsSemverShape sem) :
    endMatchAt pfx (pfx ++ sem) = some (pfx ++ sem) := by
  unfold endMatchAt
  rw [if_pos (startsWithL_of_append pfx sem), List.drop_left, matchSemver_exact hsem]
  simp

theorem findEndMatch_sound {pfx value m0 : Str} (h : findEndMatch pfx value = some m0) :
    ∃ u sem, IsSemverShape sem ∧ value = u ++ (pfx ++ sem) ∧ m0 = pfx ++ sem := by
  induction value with
  | nil => exact absurd h (by simp [findEndMatch])
  | cons c s ih =>
    simp only [findEndMatch] at h
    cases hc : endMatchAt pfx (c :: s) with
    | some m =>
      rw [hc] at h
      simp only [Option.some.injEq] at h
      subst h
      obtain ⟨sem, hshape, hs, hm⟩ := endMatchAt_sound hc
      exact ⟨[], sem, hshape, by simpa using hs, hm⟩
    | none =>
      rw [hc] at h
      obtain ⟨u, sem, hshape, hs, hm⟩ := ih h
      exact ⟨c :: u, sem, hshape, by simp [hs], hm⟩

theorem findEndMatch_isSome {pfx u sem value : Str} (hsem : IsSemverShape sem)
    (hv : value = u ++ (pfx ++ sem)) : (findEndMatch pfx value).isSome = true := by
  subst hv
  induction u with
  | nil =>
    rw [List.nil_append]
    cases hps : pfx ++ sem with
    | nil =>
      rcases List.append_eq_nil.mp hps with ⟨-, hsnil⟩
      exact absurd hsnil hsem.ne_nil
    | cons x t =>
      simp only [findEndMatch]
      have he := endMatchAt_exact pfx hsem
      rw [hps] at he
      rw [he]
      simp
  | cons c u ih =>
    rw [List.cons_append]
    simp only [findEndMatch]
    cases hc : endMatchAt pfx (c :: (u ++ (pfx ++ sem))) with
    | some m => simp
    | none => exact ih

theorem IsSemverShape.two_le_length {m : Str} (h : IsSemverShape m) : 2 ≤ m.length := by
  obtain ⟨d1, d2, d3, rest, rfl, hne1, -⟩ := h
  cases d1 with
  | nil => exact absurd rfl hne1
  | cons x t => simp; omega

theorem IsSemverShape.head_digit {m : Str} (h : IsSemverShape m) :
    ∃ x t, m = x :: t ∧ isDigitChar x = true := by
  obtain ⟨d1, d2, d3, rest, rfl, hne1, hne2, hne3, hd1, -⟩ := h
  cases d1 with
  | nil => exact absurd rfl hne1
  | cons x t => exact ⟨x, t ++ '.' :: d2 ++ '.' :: d3 ++ rest, by simp, hd1 x (by simp)⟩

theorem findEmbeddedVersion_spec {value pfx : Str}
    (h : findEmbeddedVersion value pfx ≠ []) : HasEmbedded value pfx := by
  unfold findEmbeddedVersion at h
  cases hc : findColonMatch pfx value with
  | some m =>
    obtain ⟨u, sem, r, hshape, hv, -⟩ := findColonMatch_sound hc
    exact .inl ⟨u, sem, r, hshape, by simpa [List.append_assoc] using hv⟩
  | none =>
    rw [hc] at h
    cases he : findEndMatch pfx value with
    | some m =>
      obtain ⟨u, sem, hshape, hv, -⟩ := findEndMatch_sound he
      exact .inr ⟨u, sem, hshape, by simpa [List.append_assoc] using hv⟩
    | none => rw [he] at h; exact absurd rfl h

theorem findEmbeddedVersion_ne_nil {value pfx : Str} (h : HasEmbedded value pfx) :
    findEmbeddedVersion value pfx ≠ [] := by
  unfold findEmbeddedVersion
  cases hc : findColonMatch pfx value with
  | some m =>
    simp only []
    obtain ⟨u, sem, r, hshape, hv, hm⟩ := findColonMatch_sound hc
    subst hm
    have hsw : startsWithL (':' :: (pfx ++ sem)) [':'] = true := by
      simp [startsWithL]
    rw [if_pos hsw]
    simp only [List.drop_one, List.tail_cons]
    intro hnil
    rcases List.append_eq_nil.mp hnil with ⟨-, hsnil⟩
    exact hshape.ne_nil hsnil
  | none =>
    simp only []
    rcases h with ⟨u, sem, w, hshape, hv⟩ | ⟨u, sem, hshape, hv⟩
    · have hs := findColonMatch_isSome hshape (u := u) (w := w)
        (by simpa [List.append_assoc] using hv)
      rw [hc] at hs
      exact absurd hs (by simp)
    · cases he : findEndMatch pfx value with
      | none =>
        have hs := findEndMatch_isSome hshape (u := u)
          (by simpa [List.append_assoc] using hv)
        rw [he] at hs
        exact absurd hs (by simp)
      | some m =>
        simp only []
        obtain ⟨u', sem', hshape', hv', hm⟩ := findEndMatch_sound he
        subst hm
        by_cases hsw : startsWithL (pfx ++ sem') [':'] = true
        · rw [if_pos hsw]
          intro hnil
          have hlen : (pfx ++ sem').length - 1 = 0 := by
            simpa using congrArg List.length hnil
          have h2 := hshape'.two_le_length
          simp only [List.length_append] at hlen
          omega
        · rw [if_neg hsw]
          intro hnil
          rcases List.append_eq_nil.mp hnil with ⟨-, hsnil⟩
          exact hshape'.ne_nil hsnil

theorem findEmbeddedVersion_form (value : Str) {pfx : Str} (hp : pfx.head? ≠ some ':') :
    findEmbeddedVersion value pfx = [] ∨
    ∃ m, IsSemverShape m ∧ findEmbeddedVersion value pfx = pfx ++ m := by
  unfold findEmbeddedVersion
  cases hc : findColonMatch pfx value with
  | some m0 =>
    simp only []
    obtain ⟨u, sem, r, hshape, hv, hm⟩ := findColonMatch_sound hc
    subst hm
    right
    refine ⟨sem, hshape, ?_⟩
    rw [if_pos (by simp [startsWithL])]
    simp
  | none =>
    simp only []
    cases he : findEndMatch pfx value with
    | none => exact .inl rfl
    | some m0 =>
      simp only []
      obtain ⟨u, sem, hshape, hv, hm⟩ := findEndMatch_sound he
      subst hm
      right
      refine ⟨sem, hshape, ?_⟩
      rw [if_neg ?hns]
      case hns =>
        intro hsw
        obtain ⟨t, ht⟩ := (startsWithL_iff _ _).1 hsw
        cases pfx with
        | nil =>
          obtain ⟨x, tx, hx, hdx⟩ := hshape.head_digit
          rw [List.nil_append, hx] at ht
          rw [List.singleton_append, List.cons.injEq] at ht
          rw [ht.1] at hdx
          exact absurd hdx (by decide)
        | cons y p' =>
          rw [List.cons_append, List.singleton_append, List.cons.injEq] at ht
          exact hp (by simp [ht.1])

/-- Claim C4, counterexample: in the value `a:1.0.0 2.0.0` (prefix empty),
both a mid-string colon-delimited match (`:1.0.0`) and an end-of-string
match (`2.0.0`) exist, yet findEmbeddedVersion returns the colon match
`1.0.0`, not the end-of-string match `2.0.0` the claim requires. -/
theorem c4_counterexample :
    findEndMatch [] (lit "a:1.0.0 2.0.0") = some (lit "2.0.0") ∧
    findColonMatch [] (lit "a:1.0.0 2.0.0") = some (lit ":1.0.0") ∧
    findEmbeddedVersion (lit "a:1.0.0 2.0.0") [] = lit "1.0.0" ∧
    findEmbeddedVersion (lit "a:1.0.0 2.0.0") [] ≠ lit "2.0.0" := by
  refine ⟨by decide, by decide, by decide, by decide⟩

/-- Claim C4, amended: findEmbeddedVersion prefers the colon-delimited
match over the end-of-string match — whenever the colon pattern matches
anywhere in the value, its leftmost match (with the leading colon
stripped) is returned, and the end-of-string pattern is consulted only
when the colon pattern has no match at all. -/
theorem c4_colon_preferred (value pfx : Str) :
    (∀ m, findColonMatch pfx value = some m →
      ∃ v, m = ':' :: v ∧ findEmbeddedVersion value pfx = v) ∧
    (findColonMatch pfx value = none → ∀ m, findEndMatch pfx value = some m →
      findEmbeddedVersion value pfx = if startsWithL m [':'] then m.drop 1 else m) := by
  constructor
  · intro m hm
    obtain ⟨u, sem, r, hshape, hv, hm0⟩ := findColonMatch_sound hm
    subst hm0
    refine ⟨pfx ++ sem, rfl, ?_⟩
    unfold findEmbeddedVersion
    rw [hm]
    simp only []
    rw [if_pos (by simp [startsWithL])]
    simp
  · intro hc m hm
    unfold findEmbeddedVersion
    rw [hc]
    simp only []
    rw [hm]

/-- Witness for c4_colon_preferred at the concrete value `a:1.0.0 2.0.0`. -/
theorem c4_colon_preferred_witness :
    ∃ v, (lit ":1.0.0") = ':' :: v ∧ findEmbeddedVersion (lit "a:1.0.0 2.0.0") [] = v :=
  (c4_colon_preferred (lit "a:1.0.0 2.0.0") []).1 (lit ":1.0.0") (by decide)

/-- Claim C6: findEmbeddedVersion returns a match exactly when a
semantic-version-shaped substring, directly preceded by the prefix, is
either immediately preceded by a colon or located at the very end of the
value (so a version-looking substring in a mid-path position is never
matched); and the returned match includes the prefix (for any prefix not
itself starting with a colon, the returned string is the prefix followed
by the semver-shaped substring). -/
theorem c6_embedded_detector_spec (value pfx : Str) :
    (findEmbeddedVersion value pfx ≠ [] ↔ HasEmbedded value pfx) ∧
    (pfx.head? ≠ some ':' → findEmbeddedVersion value pfx ≠ [] →
      ∃ m, IsSemverShape m ∧ findEmbeddedVersion value pfx = pfx ++ m) := by
  refine ⟨⟨findEmbeddedVersion_spec, findEmbeddedVersion_ne_nil⟩, fun hp hne => ?_⟩
  rcases findEmbeddedVersion_form value hp with h | h
  · exact absurd h hne
  · exact h

/-- Witness for c6_embedded_detector_spec at the concrete value
`myregistry.io/app:1.0.0` with the empty prefix. -/
theorem c6_embedded_detector_spec_witness :
    HasEmbedded (lit "myregistry.io/app:1.0.0") [] ∧
    ∃ m, IsSemverShape m ∧
      findEmbeddedVersion (lit "myregistry.io/app:1.0.0") [] = [] ++ m :=
  ⟨(c6_embedded_detector_spec (lit "myregistry.io/app:1.0.0") []).1.mp (by decide),
    (c6_embedded_detector_spec (lit "myregistry.io/app:1.0.0") []).2 (by decide) (by decide)⟩

/- ------------------------------------------------------------------ -/
/- Lemmas about the replacement-rule matchers.                        -/
/- ------------------------------------------------------------------ -/

theorem wsTry_some {tail : Str → Option (Str × Str)} {s w g3 rest : Str} :
    ∀ {k}, wsTry tail s k = some (w, g3, rest) →
      ∃ j, j ≤ k ∧ w = s.take j ∧ tail (s.drop j) = some (g3, rest) := by
  intro k
  induction k with
  | zero =>
    intro h
    unfold wsTry at h
    cases ht : tail s with
    | none => rw [ht] at h; exact absurd h (by simp)
    | some p =>
      rw [ht] at h
      simp only [Option.some.injEq, Prod.mk.injEq] at h
      obtain ⟨rfl, rfl, rfl⟩ := h
      exact ⟨0, Nat.le_refl 0, by simp, by simpa using ht⟩
  | succ k ih =>
    intro h
    unfold wsTry at h
    cases ht : tail (s.drop (k + 1)) with
    | some p =>
      rw [ht] at h
      simp only [Option.some.injEq, Prod.mk.injEq] at h
      obtain ⟨rfl, rfl, rfl⟩ := h
      exact ⟨k + 1, Nat.le_refl _, rfl, by simpa using ht⟩
    | none =>
      rw [ht] at h
      obtain ⟨j, hj, hw, htail⟩ := ih h
      exact ⟨j, Nat.le_succ_of_le hj, hw, htail⟩

theorem eolScan_some {s g3 rest : Str} :
    ∀ {k}, eolScan s k = some (g3, rest) →
      ∃ j, j ≤ k ∧ g3 = s.take j ∧ rest = s.drop j ∧ atEol rest = true := by
  intro k
  induction k with
  | zero =>
    intro h
    unfold eolScan at h
    by_cases he : atEol s = true
    · rw [if_pos he] at h
      simp only [Option.some.injEq, Prod.mk.injEq] at h
      obtain ⟨rfl, rfl⟩ := h
      exact ⟨0, Nat.le_refl 0, by simp, by simp, he⟩
    · rw [if_neg he] at h
      exact absurd h (by simp)
  | succ k ih =>
    intro h
    unfold eolScan at h
    by_cases he : atEol (s.drop (k + 1)) = true
    · rw [if_pos he] at h
      simp only [Option.some.injEq, Prod.mk.injEq] at h
      obtain ⟨rfl, rfl⟩ := h
      exact ⟨k + 1, Nat.le_refl _, rfl, rfl, he⟩
    · rw [if_neg he] at h
      obtain ⟨j, hj, hg, hr, hat⟩ := ih h
      exact ⟨j, Nat.le_succ_of_le hj, hg, hr, hat⟩

theorem keyColonWs_some {key s : Str} {tail : Str → Option (Str × Str)} {m : RuleMatch}
    (h : keyColonWs key tail s = some m) :
    ∃ ws t', s = (key ++ [':']) ++ (ws ++ t') ∧ m.g1 = key ++ ':' :: ws ∧
      tail t' = some (m.g3, m.rest) := by
  unfold keyColonWs at h
  by_cases hsw : startsWithL s (key ++ [':']) = true
  case neg => rw [if_neg hsw] at h; exact absurd h (by simp)
  rw [if_pos hsw] at h
  simp only [] at h
  cases hw : wsTry tail (s.drop (key.length + 1))
      ((s.drop (key.length + 1)).takeWhile isSpaceChar).length with
  | none => rw [hw] at h; exact absurd h (by simp)
  | some p =>
    obtain ⟨ws, g3, rest⟩ := p
    rw [hw] at h
    simp only [Option.some.injEq] at h
    subst h
    obtain ⟨j, hj, hwk, htail⟩ := wsTry_some hw
    subst hwk
    refine ⟨(s.drop (key.length + 1)).take j, (s.drop (key.length + 1)).drop j, ?_, rfl, htail⟩
    rw [List.take_append_drop]
    have h1 := startsWithL_exists hsw
    rw [List.length_append, List.length_singleton] at h1
    exact h1

theorem quotedTail_some {q : Char} {old t g3 rest : Str}
    (h : quotedTail q old t = some (g3, rest)) :
    t = q :: (old ++ q :: rest) ∧ g3 = [] := by
  unfold quotedTail at h
  cases t with
  | nil => exact absurd h (by simp)
  | cons c s1 =>
    simp only [] at h
    by_cases hc : (decide (c = q) && startsWithL s1 (old ++ [q])) = true
    case neg => rw [if_neg hc] at h; exact absurd h (by simp)
    rw [if_pos hc] at h
    rw [Bool.and_eq_true, decide_eq_true_eq] at hc
    obtain ⟨rfl, hsw⟩ := hc
    simp only [Option.some.injEq, Prod.mk.injEq] at h
    obtain ⟨rfl, rfl⟩ := h
    refine ⟨?_, rfl⟩
    have h1 := startsWithL_exists hsw
    rw [List.length_append, List.length_singleton] at h1
    rw [List.cons.injEq]
    refine ⟨rfl, ?_⟩
    conv_lhs => rw [h1]
    simp

theorem eolTail_some {old t g3 rest : Str} (h : eolTail old t = some (g3, rest)) :
    t = old ++ (g3 ++ rest) := by
  unfold eolTail at h
  by_cases hsw : startsWithL t old = true
  case neg => rw [if_neg hsw] at h; exact absurd h (by simp)
  rw [if_pos hsw] at h
  obtain ⟨j, hj, hg, hr, hat⟩ := eolScan_some h
  subst hg hr
  conv_lhs => rw [startsWithL_exists hsw]
  rw [List.take_append_drop]

theorem cmtTail_some {old t g3 rest : Str} (h : cmtTail old t = some (g3, rest)) :
    t = old ++ (g3 ++ rest) := by
  unfold cmtTail at h
  by_cases hsw : startsWithL t old = true
  case neg => rw [if_neg hsw] at h; exact absurd h (by simp)
  rw [if_pos hsw] at h
  simp only [] at h
  cases hd : (t.drop old.length).drop ((t.drop old.length).takeWhile isSpaceChar).length with
  | nil => rw [hd] at h; exact absurd h (by simp)
  | cons c restc =>
    rw [hd] at h
    simp only [] at h
    by_cases hc : c = '#'
    case neg => rw [if_neg hc] at h; exact absurd h (by simp)
    subst hc
    rw [if_pos rfl] at h
    simp only [Option.some.injEq, Prod.mk.injEq] at h
    obtain ⟨rfl, hrest⟩ := h
    subst hrest
    conv_lhs => rw [startsWithL_exists hsw]
    rw [drop_takeWhile_length] at hd
    have ht : t.drop old.length
        = (t.drop old.length).takeWhile isSpaceChar ++ '#' :: restc := by
      conv_lhs => rw [← List.takeWhile_append_dropWhile isSpaceChar (t.drop old.length)]
      rw [hd]
    conv_lhs => rw [ht]
    simp

theorem fbTail_some {old t g3 rest : Str} (h : fbTail old t = some (g3, rest)) :
    t = old ++ rest ∧ g3 = [] := by
  unfold fbTail at h
  by_cases hsw : startsWithL t old = true
  case neg => rw [if_neg hsw] at h; exact absurd h (by simp)
  rw [if_pos hsw] at h
  simp only [Option.some.injEq, Prod.mk.injEq] at h
  obtain ⟨rfl, rfl⟩ := h
  exact ⟨startsWithL_exists hsw, rfl⟩

theorem ruleMatchAt_sound (id : RuleId) {key old s : Str} {m : RuleMatch}
    (h : ruleMatchAt id key old s = some m) :
    s = ruleText id old m ++ m.rest ∧ ∃ ws, m.g1 = key ++ ':' :: ws := by
  cases id with
  | dq =>
    obtain ⟨ws, t', hs, hg1, htail⟩ := keyColonWs_some h
    obtain ⟨ht, hg3⟩ := quotedTail_some htail
    refine ⟨?_, ws, hg1⟩
    rw [hs, ht]
    simp [ruleText, hg1]
  | sq =>
    obtain ⟨ws, t', hs, hg1, htail⟩ := keyColonWs_some h
    obtain ⟨ht, hg3⟩ := quotedTail_some htail
    refine ⟨?_, ws, hg1⟩
    rw [hs, ht]
    simp [ruleText, hg1]
  | eol =>
    obtain ⟨ws, t', hs, hg1, htail⟩ := keyColonWs_some h
    have ht := eolTail_some htail
    refine ⟨?_, ws, hg1⟩
    rw [hs, ht]
    simp [ruleText, hg1]
  | cmt =>
    obtain ⟨ws, t', hs, hg1, htail⟩ := keyColonWs_some h
    have ht := cmtTail_some htail
    refine ⟨?_, ws, hg1⟩
    rw [hs, ht]
    simp [ruleText, hg1]
  | fb =>
    obtain ⟨ws, t', hs, hg1, htail⟩ := keyColonWs_some h
    obtain ⟨ht, hg3⟩ := fbTail_some htail
    refine ⟨?_, ws, hg1⟩
    rw [hs, ht]
    simp [ruleText, hg1]

theorem ruleMatchAt_rest_lt (id : RuleId) {key old s : Str} {m : RuleMatch}
    (h : ruleMatchAt id key old s = some m) : m.rest.length < s.length := by
  obtain ⟨hdec, ws, hg1⟩ := ruleMatchAt_sound id h
  have hlen : 0 < (ruleText id old m).length := by
    cases id <;> simp [ruleText, hg1]
  rw [hdec, List.length_append]
  omega

theorem ruleMatchAt_rest_suffix (id : RuleId) {key old s : Str} {m : RuleMatch}
    (h : ruleMatchAt id key old s = some m) : m.rest <:+ s :=
  ⟨ruleText id old m, (ruleMatchAt_sound id h).1.symm⟩

/- ------------------------------------------------------------------ -/
/- Lemmas about Go regexp's Expand of a replacement template.         -/
/- ------------------------------------------------------------------ -/

theorem extractRef_length {t name rest : Str} (h : extractRef t = some (name, rest)) :
    rest.length < t.length := by
  unfold extractRef at h
  cases t with
  | nil => exact absurd h (by simp)
  | cons c t1 =>
    simp only [] at h
    by_cases hc : c = '{'
    · rw [if_pos hc] at h
      by_cases hne : (t1.takeWhile isNameChar).isEmpty = true
      · rw [if_pos hne] at h; exact absurd h (by simp)
      · rw [if_neg hne] at h
        cases hd : t1.drop (t1.takeWhile isNameChar).length with
        | nil => rw [hd] at h; exact absurd h (by simp)
        | cons d rest1 =>
          rw [hd] at h
          simp only [] at h
          by_cases hdd : d = '}'
          · rw [if_pos hdd] at h
            simp only [Option.some.injEq, Prod.mk.injEq] at h
            obtain ⟨-, rfl⟩ := h
            have hlen := congrArg List.length hd
            simp only [List.length_drop, List.length_cons] at hlen
            simp only [List.length_cons]
            omega
          · rw [if_neg hdd] at h; exact absurd h (by simp)
    · rw [if_neg hc] at h
      by_cases hne : ((c :: t1).takeWhile isNameChar).isEmpty = true
      · rw [if_pos hne] at h; exact absurd h (by simp)
      · rw [if_neg hne] at h
        simp only [Option.some.injEq, Prod.mk.injEq] at h
        obtain ⟨-, rfl⟩ := h
        have hk : 1 ≤ ((c :: t1).takeWhile isNameChar).length := by
          cases hE : (c :: t1).takeWhile isNameChar with
          | nil => exact absurd (by rw [hE]; rfl) hne
          | cons a l => simp
        simp only [List.length_drop, List.length_cons]
        omega

theorem expandTemplateGo_fuel_eq (gs : List Str) :
    ∀ n1 n2 s, s.length ≤ n1 → s.length ≤ n2 →
      expandTemplateGo gs n1 s = expandTemplateGo gs n2 s := by
  intro n1
  induction n1 with
  | zero =>
    intro n2 s h1 h2
    have : s = [] := by
      cases s with
      | nil => rfl
      | cons c t => simp at h1
    subst this
    cases n2 <;> rfl
  | succ n1 ih =>
    intro n2 s h1 h2
    cases s with
    | nil => cases n2 <;> rfl
    | cons c t =>
      cases n2 with
      | zero => simp at h2
      | succ n2 =>
        simp only [expandTemplateGo]
        by_cases hc : c = '$'
        · rw [if_pos hc, if_pos hc]
          cases t with
          | nil => rfl
          | cons c2 t2 =>
            simp only []
            by_cases hc2 : c2 = '$'
            · rw [if_pos hc2, if_pos hc2]
              simp only [List.length_cons] at h1 h2
              rw [ih n2 t2 (by omega) (by omega)]
            · rw [if_neg hc2, if_neg hc2]
              cases he : extractRef (c2 :: t2) with
              | some p =>
                obtain ⟨name, rest⟩ := p
                simp only []
                have hr := extractRef_length he
                simp only [List.length_cons] at h1 h2 hr
                rw [ih n2 rest (by omega) (by omega)]
              | none =>
                simp only []
                simp only [List.length_cons] at h1 h2
                rw [ih n2 (c2 :: t2) (by simp only [List.length_cons]; omega)
                  (by simp only [List.length_cons]; omega)]
        · rw [if_neg hc, if_neg hc]
          simp only [List.length_cons] at h1 h2
          rw [ih n2 t (by omega) (by omega)]

theorem expandTemplate_nil (gs : List Str) : expandTemplate gs [] = [] := rfl

theorem expandTemplate_cons_lit {c : Char} (hc : ¬ c = '$') (gs : List Str) (t : Str) :
    expandTemplate gs (c :: t) = c :: expandTemplate gs t := by
  unfold expandTemplate
  simp only [List.length_cons, expandTemplateGo]
  rw [if_neg hc]

theorem expandTemplate_lit_append {X : Str} (hX : ∀ c ∈ X, ¬ c = '$')
    (gs : List Str) (Y : Str) :
    expandTemplate gs (X ++ Y) = X ++ expandTemplate gs Y := by
  induction X with
  | nil => simp
  | cons c X1 ih =>
    rw [List.cons_append, expandTemplate_cons_lit (hX c (by simp)) gs (X1 ++ Y),
      ih (fun x hx => hX x (by simp [hx])), List.cons_append]

theorem expandTemplate_lit {X : Str} (hX : ∀ c ∈ X, ¬ c = '$') (gs : List Str) :
    expandTemplate gs X = X := by
  have h := expandTemplate_lit_append hX gs []
  simpa [expandTemplate_nil] using h

theorem expandTemplate_brace_ref (gs : List Str) {d : Char}
    (hd : isNameChar d = true) (Y : Str) :
    expandTemplate gs ('$' :: '{' :: d :: '}' :: Y) =
      expandRefL gs [d] ++ expandTemplate gs Y := by
  have hname : (d :: '}' :: Y).takeWhile isNameChar = [d] := by
    rw [List.takeWhile_cons, if_pos hd, List.takeWhile_cons, if_neg (by decide)]
  have he : extractRef ('{' :: d :: '}' :: Y) = some ([d], Y) := by
    unfold extractRef
    simp [hname]
  unfold expandTemplate
  simp only [List.length_cons, expandTemplateGo, reduceIte]
  rw [he]
  simp only []
  rw [expandTemplateGo_fuel_eq gs (Y.length + 1 + 1 + 1) Y.length Y (by omega)
    (Nat.le_refl _), if_neg (show ¬('{' : Char) = '$' from by decide)]

theorem expandRefL_one (gs : List Str) : expandRefL gs ['1'] = gs.getD 1 [] := by
  unfold expandRefL
  rw [if_pos (by decide), show natOfDigits ['1'] = 1 from by decide]

theorem expandRefL_three (gs : List Str) : expandRefL gs ['3'] = gs.getD 3 [] := by
  unfold expandRefL
  rw [if_pos (by decide), show natOfDigits ['3'] = 3 from by decide]

theorem expandTemplate_ref1 (gs : List Str) (Y : Str) :
    expandTemplate gs (lit "${1}" ++ Y) = gs.getD 1 [] ++ expandTemplate gs Y := by
  rw [show lit "${1}" ++ Y = '$' :: '{' :: '1' :: '}' :: Y from rfl,
    expandTemplate_brace_ref gs (by decide) Y, expandRefL_one]

theorem expandTemplate_ref3_end (gs : List Str) :
    expandTemplate gs (lit "${3}") = gs.getD 3 [] := by
  rw [show (lit "${3}" : Str) = '$' :: '{' :: '3' :: '}' :: ([] : Str) from rfl,
    expandTemplate_brace_ref gs (by decide) [], expandRefL_three]
  simp [expandTemplate_nil]

theorem ruleRepl_self_of_no_dollar (id : RuleId) (key old : Str) (m : RuleMatch)
    (hd : ∀ c ∈ old, ¬ c = '$') :
    ruleRepl id key old old m = ruleText id old m := by
  cases id with
  | dq =>
    simp only [ruleRepl, ruleApply, doubleQuoted, ruleText]
    rw [expandTemplate_ref1, expandTemplate_lit (by
      intro c hc
      simp only [List.mem_cons, List.mem_append, List.not_mem_nil, or_false] at hc
      rcases hc with (rfl | hc1) | rfl
      · decide
      · exact hd c hc1
      · decide)]
    simp [List.getD_cons_succ, List.getD_cons_zero]
  | sq =>
    simp only [ruleRepl, ruleApply, singleQuoted, ruleText]
    rw [expandTemplate_ref1, expandTemplate_lit (by
      intro c hc
      simp only [List.mem_cons, List.mem_append, List.not_mem_nil, or_false] at hc
      rcases hc with (rfl | hc1) | rfl
      · decide
      · exact hd c hc1
      · decide)]
    simp [List.getD_cons_succ, List.getD_cons_zero]
  | eol =>
    simp only [ruleRepl, ruleApply, unquotedEol, ruleText]
    rw [expandTemplate_ref1, expandTemplate_lit_append hd, expandTemplate_ref3_end]
    simp [List.getD_cons_succ, List.getD_cons_zero]
  | cmt =>
    simp only [ruleRepl, ruleApply, unquotedComment, ruleText]
    rw [expandTemplate_ref1, expandTemplate_lit_append hd, expandTemplate_ref3_end]
    simp [List.getD_cons_succ, List.getD_cons_zero]
  | fb =>
    simp only [ruleRepl, fallbackApply, ruleText]
    rw [expandTemplate_ref1, expandTemplate_lit hd]
    simp [List.getD_cons_succ, List.getD_cons_zero]

/- ------------------------------------------------------------------ -/
/- Lemmas about replaceAllL.                                          -/
/- ------------------------------------------------------------------ -/

theorem replaceAllGo_fuel_eq {mAt : Str → Option RuleMatch} {rep : RuleMatch → Str}
    (hshr : ∀ s m, mAt s = some m → m.rest.length < s.length) :
    ∀ n1 n2 s, s.length ≤ n1 → s.length ≤ n2 →
      replaceAllGo mAt rep n1 s = replaceAllGo mAt rep n2 s := by
  intro n1
  induction n1 with
  | zero =>
    intro n2 s h1 h2
    have : s = [] := by
      cases s with
      | nil => rfl
      | cons c t => simp at h1
    subst this
    cases n2 <;> rfl
  | succ n1 ih =>
    intro n2 s h1 h2
    cases s with
    | nil => cases n2 <;> rfl
    | cons c t =>
      cases n2 with
      | zero => simp at h2
      | succ n2 =>
        simp only [replaceAllGo]
        cases hm : mAt (c :: t) with
        | some m =>
          simp only []
          have hr := hshr _ _ hm
          simp only [List.length_cons] at h1 h2 hr
          rw [ih n2 m.rest (by omega) (by omega)]
        | none =>
          simp only []
          simp only [List.length_cons] at h1 h2
          rw [ih n2 t (by omega) (by omega)]

theorem replaceAllL_cons_some {mAt : Str → Option RuleMatch} {rep : RuleMatch → Str}
    (hshr : ∀ s m, mAt s = some m → m.rest.length < s.length)
    {c : Char} {s : Str} {m : RuleMatch} (hm : mAt (c :: s) = some m) :
    replaceAllL mAt rep (c :: s) = rep m ++ replaceAllL mAt rep m.rest := by
  unfold replaceAllL
  have hr := hshr _ _ hm
  simp only [List.length_cons, replaceAllGo, hm]
  rw [replaceAllGo_fuel_eq hshr s.length m.rest.length m.rest
    (by simp only [List.length_cons] at hr; omega) (Nat.le_refl _)]

theorem replaceAllL_cons_none {mAt : Str → Option RuleMatch} {rep : RuleMatch → Str}
    {c : Char} {s : Str} (hm : mAt (c :: s) = none) :
    replaceAllL mAt rep (c :: s) = c :: replaceAllL mAt rep s := by
  unfold replaceAllL
  simp only [List.length_cons, replaceAllGo, hm]

theorem replaceAllL_id {mAt : Str → Option RuleMatch} {rep : RuleMatch → Str}
    (hshr : ∀ s m, mAt s = some m → m.rest.length < s.length)
    (hid : ∀ s m, mAt s = some m → rep m ++ m.rest = s) :
    ∀ s, replaceAllL mAt rep s = s := by
  have haux : ∀ n s, s.length ≤ n → replaceAllL mAt rep s = s := by
    intro n
    induction n with
    | zero =>
      intro s hs
      cases s with
      | nil => rfl
      | cons c t => simp at hs
    | succ n ih =>
      intro s hs
      cases s with
      | nil => rfl
      | cons c t =>
        cases hm : mAt (c :: t) with
        | some m =>
          have hr := hshr _ _ hm
          simp only [List.length_cons] at hs hr
          rw [replaceAllL_cons_some hshr hm, ih m.rest (by omega), hid _ _ hm]
        | none =>
          simp only [List.length_cons] at hs
          rw [replaceAllL_cons_none hm, ih t (by omega)]
  exact fun s => haux s.length s (Nat.le_refl _)

theorem suffix_split {t a v : Str} (h : t <:+ a ++ v) (hl : v.length ≤ t.length) :
    ∃ b, t = b ++ v := by
  obtain ⟨p, hp⟩ := h
  refine ⟨a.drop p.length, ?_⟩
  have hlen : p.length + t.length = a.length + v.length := by
    simpa using congrArg List.length hp
  have hpa : p.length ≤ a.length := by omega
  have hptake : p = a.take p.length := by
    have h1 : p = (p ++ t).take p.length := by rw [List.take_left]
    rw [hp, List.take_append_of_le_length hpa] at h1
    exact h1
  have hpd : p ++ a.drop p.length = a := by
    conv_rhs => rw [← List.take_append_drop p.length a]
    rw [← hptake]
  have hp2 : p ++ (a.drop p.length ++ v) = a ++ v := by
    rw [← List.append_assoc, hpd]
  exact List.append_cancel_left (hp.trans hp2.symm)

theorem replaceAllL_frame_prefix {mAt : Str → Option RuleMatch} {rep : RuleMatch → Str}
    (hshr : ∀ s m, mAt s = some m → m.rest.length < s.length)
    (hsuf : ∀ s m, mAt s = some m → m.rest <:+ s) :
    ∀ n u v, u.length ≤ n →
      (∀ t m, t <:+ u ++ v → v.length < t.length → mAt t = some m →
        v.length ≤ m.rest.length) →
      ∃ u', replaceAllL mAt rep (u ++ v) = u' ++ replaceAllL mAt rep v := by
  intro n
  induction n with
  | zero =>
    intro u v hu _
    have hnil : u = [] := by
      cases u with
      | nil => rfl
      | cons c t => simp at hu
    subst hnil
    exact ⟨[], by simp⟩
  | succ n ih =>
    intro u v hu hcross
    cases u with
    | nil => exact ⟨[], by simp⟩
    | cons c u1 =>
      rw [List.cons_append]
      cases hm : mAt (c :: (u1 ++ v)) with
      | none =>
        obtain ⟨u'', heq⟩ := ih u1 v (by simp only [List.length_cons] at hu; omega)
          (fun t m ht hlt hmt => hcross t m
            (ht.trans (by rw [List.cons_append]; exact List.suffix_cons _ _)) hlt hmt)
        exact ⟨c :: u'', by rw [replaceAllL_cons_none hm, heq, List.cons_append]⟩
      | some m =>
        have hvr : v.length ≤ m.rest.length := by
          refine hcross (c :: (u1 ++ v)) m ?_
            (by simp only [List.length_cons, List.length_append]; omega) hm
          rw [List.cons_append]
        have hrs : m.rest <:+ (c :: u1) ++ v := by
          rw [List.cons_append]
          exact hsuf _ _ hm
        obtain ⟨b, hb⟩ := suffix_split hrs hvr
        have hblen : b.length ≤ n := by
          have hr := hshr _ _ hm
          have hbl : m.rest.length = b.length + v.length := by
            rw [hb, List.length_append]
          simp only [List.length_cons, List.length_append] at hr hu
          omega
        have hcr : ∀ t mt, t <:+ b ++ v → v.length < t.length → mAt t = some mt →
            v.length ≤ mt.rest.length := by
          intro t mt ht hlt hmt
          refine hcross t mt ?_ hlt hmt
          rw [List.cons_append]
          have h1 : t <:+ m.rest := by rw [hb]; exact ht
          exact h1.trans (hsuf _ _ hm)
        obtain ⟨u2', heq2⟩ := ih b v hblen hcr
        refine ⟨rep m ++ u2', ?_⟩
        rw [replaceAllL_cons_some hshr hm, hb, heq2, List.append_assoc]

theorem replaceAllL_skip {mAt : Str → Option RuleMatch} {rep : RuleMatch → Str}
    (seg w : Str)
    (hnone : ∀ t, t <:+ seg ++ w → w.length < t.length → mAt t = none) :
    replaceAllL mAt rep (seg ++ w) = seg ++ replaceAllL mAt rep w := by
  induction seg with
  | nil => simp
  | cons c seg1 ih =>
    rw [List.cons_append]
    have hm : mAt (c :: (seg1 ++ w)) = none := by
      refine hnone (c :: (seg1 ++ w)) ?_
        (by simp only [List.length_cons, List.length_append]; omega)
      rw [List.cons_append]
    rw [replaceAllL_cons_none hm,
      ih (fun t ht hlt => hnone t
        (ht.trans (by rw [List.cons_append]; exact List.suffix_cons _ _)) hlt),
      List.cons_append]

/- ------------------------------------------------------------------ -/
/- Characterization of surgicalReplace's rule cascade.                -/
/- ------------------------------------------------------------------ -/

theorem surgicalReplace_eq_ruleCases (data key old new : Str) :
    surgicalReplace data key old new =
      if hasMatchL (doubleQuoted.matchAt key old) data then
        .ok (replaceAllL (doubleQuoted.matchAt key old)
          (ruleApply doubleQuoted key old new) data)
      else if hasMatchL (singleQuoted.matchAt key old) data then
        .ok (replaceAllL (singleQuoted.matchAt key old)
          (ruleApply singleQuoted key old new) data)
      else if hasMatchL (unquotedEol.matchAt key old) data then
        .ok (replaceAllL (unquotedEol.matchAt key old)
          (ruleApply unquotedEol key old new) data)
      else if hasMatchL (unquotedComment.matchAt key old) data then
        .ok (replaceAllL (unquotedComment.matchAt key old)
          (ruleApply unquotedComment key old new) data)
      else if hasMatchL (fallbackMatchAt key old) data then
        .ok (replaceAllL (fallbackMatchAt key old) (fallbackApply key old new) data)
      else .error (couldNotFindMsg old key) := by
  unfold surgicalReplace replacementRules
  simp only [tryRulesL]
  split_ifs <;> simp

theorem surgicalReplace_ok_cases {data key old new out : Str}
    (h : surgicalReplace data key old new = .ok out) :
    ∃ id : RuleId,
      out = replaceAllL (ruleMatchAt id key old) (ruleRepl id key old new) data := by
  rw [surgicalReplace_eq_ruleCases] at h
  split_ifs at h <;> simp only [Except.ok.injEq] at h
  · exact ⟨.dq, h.symm⟩
  · exact ⟨.sq, h.symm⟩
  · exact ⟨.eol, h.symm⟩
  · exact ⟨.cmt, h.symm⟩
  · exact ⟨.fb, h.symm⟩

/-- Claim C7: surgicalReplace tries the four key-scoped rules in the fixed
order double-quoted, single-quoted, unquoted-at-end-of-line,
unquoted-before-inline-comment; the first rule whose pattern matches the
content is the one applied (to all of its matches); if none matches, the
fallback pattern requiring `key:` immediately before the old value is
attempted; if that also fails, surgicalReplace returns an error and no
content is produced. -/
theorem c7_rule_cascade (data key old new : Str) :
    surgicalReplace data key old new =
      if hasMatchL (doubleQuoted.matchAt key old) data then
        .ok (replaceAllL (doubleQuoted.matchAt key old)
          (ruleApply doubleQuoted key old new) data)
      else if hasMatchL (singleQuoted.matchAt key old) data then
        .ok (replaceAllL (singleQuoted.matchAt key old)
          (ruleApply singleQuoted key old new) data)
      else if hasMatchL (unquotedEol.matchAt key old) data then
        .ok (replaceAllL (unquotedEol.matchAt key old)
          (ruleApply unquotedEol key old new) data)
      else if hasMatchL (unquotedComment.matchAt key old) data then
        .ok (replaceAllL (unquotedComment.matchAt key old)
          (ruleApply unquotedComment key old new) data)
      else if hasMatchL (fallbackMatchAt key old) data then
        .ok (replaceAllL (fallbackMatchAt key old) (fallbackApply key old new) data)
      else .error (couldNotFindMsg old key) :=
  surgicalReplace_eq_ruleCases data key old new

/-- Claim C8, counterexample: two failures of the equal-versions claim.
First, with currentVersion = newVersion = 1.0.0 but a located value `abc`
containing no embedded version, the wholesale path replaces `abc` by
`1.0.0`, so the rewritten file differs from the input although the two
versions are equal.  Second, even on the embedded-version path the file
is mangled when the located value contains a `$`: ReplaceAllString
expands `$`-references of the replacement template, so the located value
`x:1.0.0$2` in a double-quoted field comes back as `x:1.0.0x:1.0.0$2`
(the `$2` expands to capture group 2, the old value). -/
theorem c8_counterexample :
    (updateYAMLContent (lit "f") (lit "version") [] (lit "1.0.0") (lit "1.0.0")
      (lit "abc") (lit "version: abc\n") = .ok (lit "version: 1.0.0\n") ∧
     lit "version: 1.0.0\n" ≠ lit "version: abc\n") ∧
    (updateYAMLContent (lit "f") (lit "version") [] (lit "1.0.0") (lit "1.0.0")
      (lit "x:1.0.0$2") (lit "version: \"x:1.0.0$2\"\n")
      = .ok (lit "version: \"x:1.0.0x:1.0.0$2\"\n") ∧
     lit "version: \"x:1.0.0x:1.0.0$2\"\n" ≠ lit "version: \"x:1.0.0$2\"\n") :=
  ⟨⟨by decide, by decide⟩, ⟨by decide, by decide⟩⟩

/-- Claim C8 (amended): when currentVersion equals newVersion, the located
value contains prefix ++ currentVersion (the embedded-version path) and
the located value contains no dollar character, a successful update
rewrites the file to content byte-for-byte identical to the input.  The
dollar proviso is forced: ReplaceAllString expands `$`-references of the
replacement template, so a located value containing `$` can be rewritten
even though the versions are equal (second half of the
counterexample). -/
theorem c8_idempotent_when_embedded (file path pfx cur valueAtPath data out : Str)
    (hc : containsL valueAtPath (pfx ++ cur) = true)
    (hnd : ∀ c ∈ valueAtPath, ¬ c = '$')
    (h : updateYAMLContent file path pfx cur cur valueAtPath data = .ok out) :
    out = data := by
  unfold updateYAMLContent at h
  simp only [] at h
  rw [if_pos hc, replaceOnce_self] at h
  unfold replaceStage at h
  cases hs : surgicalReplace data (extractKeyFromPath path) valueAtPath valueAtPath with
  | error e => rw [hs] at h; exact absurd h (by simp)
  | ok newData =>
    rw [hs] at h
    simp only [Except.ok.injEq] at h
    subst h
    obtain ⟨id, rfl⟩ := surgicalReplace_ok_cases hs
    refine replaceAllL_id (fun s m hm => ruleMatchAt_rest_lt id hm)
      (fun s m hm => ?_) data
    rw [ruleRepl_self_of_no_dollar id (extractKeyFromPath path) valueAtPath m hnd]
    exact ((ruleMatchAt_sound id hm).1).symm

/-- Witness for c8_idempotent_when_embedded at a concrete file. -/
theorem c8_idempotent_when_embedded_witness :
    lit "version: 1.0.0\n" = lit "version: 1.0.0\n" :=
  c8_idempotent_when_embedded (lit "f") (lit "version") [] (lit "1.0.0") (lit "1.0.0")
    (lit "version: 1.0.0\n") (lit "version: 1.0.0\n") (by decide) (by decide) (by decide)

/-- Claim C3, counterexample: the document has the two distinct keys
`myversion` and `version` with the identical literal value `1.0.0`;
updating the value at key `version` also rewrites the `myversion` line,
because the unquoted-end-of-line pattern for `version` matches inside
`myversion: 1.0.0`. -/
theorem c3_counterexample :
    updateYAMLContent (lit "f") (lit "version") [] (lit "1.0.0") (lit "2.0.0")
      (lit "1.0.0") (lit "myversion: 1.0.0\nversion: 1.0.0\n")
      = .ok (lit "myversion: 2.0.0\nversion: 2.0.0\n") ∧
    containsL (lit "myversion: 2.0.0\nversion: 2.0.0\n") (lit "myversion: 1.0.0")
      = false :=
  ⟨by decide, by decide⟩

/-- Claim C3 (amended): given a document containing two distinct keys with
the identical literal value, updating one key never alters the other
key's text (value and quoting included), provided the updated key's
patterns cannot match starting inside the other key's text and no match
starting earlier in the file extends into it.  The proviso is forced by
the counterexample: when the updated key is a suffix of the other key
(e.g. `version` and `myversion`), the key-scoped pattern does match
inside the other key's line and rewrites it. -/
theorem c3_key_scoping_frame (key old new data u seg w out : Str)
    (hdata : data = u ++ (seg ++ w))
    (hnostart : ∀ id : RuleId, ∀ t ∈ (seg ++ w).tails, w.length < t.length →
      ruleMatchAt id key old t = none)
    (hnocross : ∀ id : RuleId, ∀ t ∈ data.tails, (seg ++ w).length < t.length →
      ∀ m, ruleMatchAt id key old t = some m → (seg ++ w).length ≤ m.rest.length)
    (h : surgicalReplace data key old new = .ok out) :
    ∃ u' w', out = u' ++ (seg ++ w') := by
  obtain ⟨id, rfl⟩ := surgicalReplace_ok_cases h
  subst hdata
  obtain ⟨u', heq⟩ := replaceAllL_frame_prefix
    (fun s m hm => ruleMatchAt_rest_lt id hm)
    (fun s m hm => ruleMatchAt_rest_suffix id hm)
    u.length u (seg ++ w) (Nat.le_refl _)
    (fun t m ht hlt hmt =>
      hnocross id t ((List.mem_tails _ _).mpr ht) hlt m hmt)
  rw [heq, replaceAllL_skip seg w
    (fun t ht hlt => hnostart id t ((List.mem_tails _ _).mpr ht) hlt)]
  exact ⟨u', replaceAllL (ruleMatchAt id key old) (ruleRepl id key old new) w, rfl⟩

/-- Witness for c3_key_scoping_frame: updating key `a` in
`a: 1.0.0\nb: 1.0.0\n` leaves the segment `b: 1.0.0` intact. -/
theorem c3_key_scoping_frame_witness :
    ∃ u' w', lit "a: 2.0.0\nb: 1.0.0\n" = u' ++ (lit "b: 1.0.0" ++ w') :=
  c3_key_scoping_frame (lit "a") (lit "1.0.0") (lit "2.0.0")
    (lit "a: 1.0.0\nb: 1.0.0\n") (lit "a: 1.0.0\n") (lit "b: 1.0.0") (lit "\n")
    (lit "a: 2.0.0\nb: 1.0.0\n") (by decide) (by decide) (by decide) (by decide)

/-- Claim C5, counterexample: the key/value pair `a: 1.0.0` occurs twice;
surgicalReplace succeeds and substitutes both occurrences (Go
ReplaceAllString replaces every match of the selected pattern), so the
output is not the input with exactly one substitution applied. -/
theorem c5_counterexample :
    surgicalReplace (lit "a: 1.0.0\nb: x\na: 1.0.0\n") (lit "a") (lit "1.0.0")
      (lit "2.0.0") = .ok (lit "a: 2.0.0\nb: x\na: 2.0.0\n") ∧
    lit "a: 2.0.0\nb: x\na: 2.0.0\n" ≠ lit "a: 2.0.0\nb: x\na: 1.0.0\n" ∧
    lit "a: 2.0.0\nb: x\na: 2.0.0\n" ≠ lit "a: 1.0.0\nb: x\na: 2.0.0\n" :=
  ⟨by decide, by decide, by decide⟩

/-- Claim C5 (amended): a successful surgicalReplace applies the selected
rule's substitution at every non-overlapping match, not exactly once —
when the key/value pair occurs more than once, every occurrence matching
the selected pattern is substituted; an occurrence of the literal old
value at which no pattern of the update can match (and into which no
match extends) is preserved byte for byte. -/
theorem c5_value_occurrence_frame (key old new data u w out : Str)
    (hdata : data = u ++ (old ++ w))
    (hnostart : ∀ id : RuleId, ∀ t ∈ (old ++ w).tails, w.length < t.length →
      ruleMatchAt id key old t = none)
    (hnocross : ∀ id : RuleId, ∀ t ∈ data.tails, (old ++ w).length < t.length →
      ∀ m, ruleMatchAt id key old t = some m → (old ++ w).length ≤ m.rest.length)
    (h : surgicalReplace data key old new = .ok out) :
    ∃ u' w', out = u' ++ (old ++ w') := by
  obtain ⟨id, rfl⟩ := surgicalReplace_ok_cases h
  subst hdata
  obtain ⟨u', heq⟩ := replaceAllL_frame_prefix
    (fun s m hm => ruleMatchAt_rest_lt id hm)
    (fun s m hm => ruleMatchAt_rest_suffix id hm)
    u.length u (old ++ w) (Nat.le_refl _)
    (fun t m ht hlt hmt =>
      hnocross id t ((List.mem_tails _ _).mpr ht) hlt m hmt)
  rw [heq, replaceAllL_skip old w
    (fun t ht hlt => hnostart id t ((List.mem_tails _ _).mpr ht) hlt)]
  exact ⟨u', replaceAllL (ruleMatchAt id key old) (ruleRepl id key old new) w, rfl⟩

/-- Witness for c5_value_occurrence_frame: the occurrence of `1.0.0` in
the `b:` line of `a: 1.0.0\nb: 1.0.0\n` is preserved when key `a` is
updated. -/
theorem c5_value_occurrence_frame_witness :
    ∃ u' w', lit "a: 2.0.0\nb: 1.0.0\n" = u' ++ (lit "1.0.0" ++ w') :=
  c5_value_occurrence_frame (lit "a") (lit "1.0.0") (lit "2.0.0")
    (lit "a: 1.0.0\nb: 1.0.0\n") (lit "a: 1.0.0\nb: ") (lit "\n")
    (lit "a: 2.0.0\nb: 1.0.0\n") (by decide) (by decide) (by decide) (by decide)

/- ------------------------------------------------------------------ -/
/- Lemmas about goQuote and error-message containment.                -/
/- ------------------------------------------------------------------ -/

theorem quoteChar_plain {c : Char} (hp : plainChar c = true) : quoteChar c = [c] := by
  unfold plainChar at hp
  simp only [Bool.and_eq_true, decide_eq_true_eq] at hp
  obtain ⟨⟨⟨h1, h2⟩, h3⟩, h4⟩ := hp
  unfold quoteChar
  rw [if_neg h3, if_neg h4, if_pos (by simp [h1, h2])]

theorem flatten_quote_plain :
    ∀ {s : Str}, (∀ c ∈ s, plainChar c = true) → (s.map quoteChar).flatten = s
  | [], _ => rfl
  | c :: t, hp => by
    rw [List.map_cons, List.flatten_cons, quoteChar_plain (hp c (by simp)),
      flatten_quote_plain (fun x hx => hp x (by simp [hx]))]
    rfl

theorem goQuote_plain {s : Str} (hp : ∀ c ∈ s, plainChar c = true) :
    goQuote s = '"' :: (s ++ ['"']) := by
  unfold goQuote
  rw [flatten_quote_plain hp, List.cons_append]

theorem infixL_append_right (R : Str) {l m : Str} (h : l <:+: m) : l <:+: m ++ R := by
  obtain ⟨s, t, rfl⟩ := h
  exact ⟨s, t ++ R, by simp⟩

theorem infixL_self_right (A l : Str) : l <:+: A ++ l :=
  ⟨A, [], by simp⟩

theorem infixL_append_left (A : Str) {l m : Str} (h : l <:+: m) : l <:+: A ++ m := by
  obtain ⟨s, t, rfl⟩ := h
  exact ⟨A ++ s, t, by simp⟩

theorem infixL_quote_right (A : Str) {l : Str} (hp : ∀ c ∈ l, plainChar c = true) :
    l <:+: A ++ goQuote l := by
  rw [goQuote_plain hp]
  exact ⟨A ++ ['"'], ['"'], by simp⟩

/-- Claim C1: for every YAML update invocation with located value V,
prefix p, currentVersion c and newVersion n: if the literal string p++c
occurs as a substring of V, the value handed to the rewriter is V with
only its first occurrence of p++c replaced by p++n, the rest of V
preserved byte for byte; if p++c does not occur in V and no embedded
version is detected in V, the entire value V is replaced wholesale by
p++n. -/
theorem c1_replacement_plan (file path pfx cur new valueAtPath data : Str) :
    (containsL valueAtPath (pfx ++ cur) = true →
      ∃ a b, valueAtPath = a ++ (pfx ++ cur) ++ b ∧
        (∀ a' b', valueAtPath = a' ++ (pfx ++ cur) ++ b' → a.length ≤ a'.length) ∧
        updateYAMLContent file path pfx cur new valueAtPath data =
          replaceStage path data (extractKeyFromPath path) valueAtPath
            (a ++ (pfx ++ new) ++ b)) ∧
    (containsL valueAtPath (pfx ++ cur) = false →
      findEmbeddedVersion valueAtPath pfx = [] →
      updateYAMLContent file path pfx cur new valueAtPath data =
        replaceStage path data (extractKeyFromPath path) valueAtPath (pfx ++ new)) := by
  constructor
  · intro hc
    obtain ⟨a, b, he, hr, hmin⟩ := replaceOnce_first (pfx ++ new) hc
    refine ⟨a, b, he, hmin, ?_⟩
    unfold updateYAMLContent
    simp only []
    rw [if_pos hc, hr]
  · intro hc hemb
    unfold updateYAMLContent
    simp only []
    rw [if_neg (by simp [hc]), if_neg (by simp [hemb])]

/-- Witness for c1_replacement_plan on the embedded-version example
`myregistry.io/app:1.0.0-alpine`. -/
theorem c1_replacement_plan_witness :
    ∃ a b, lit "myregistry.io/app:1.0.0-alpine" = a ++ ([] ++ lit "1.0.0") ++ b ∧
      (∀ a' b', lit "myregistry.io/app:1.0.0-alpine" = a' ++ ([] ++ lit "1.0.0") ++ b' →
        a.length ≤ a'.length) ∧
      updateYAMLContent (lit "f") (lit "image") [] (lit "1.0.0") (lit "2.0.0")
        (lit "myregistry.io/app:1.0.0-alpine")
        (lit "image: myregistry.io/app:1.0.0-alpine\n") =
        replaceStage (lit "image") (lit "image: myregistry.io/app:1.0.0-alpine\n")
          (extractKeyFromPath (lit "image")) (lit "myregistry.io/app:1.0.0-alpine")
          (a ++ ([] ++ lit "2.0.0") ++ b) :=
  (c1_replacement_plan (lit "f") (lit "image") [] (lit "1.0.0") (lit "2.0.0")
    (lit "myregistry.io/app:1.0.0-alpine")
    (lit "image: myregistry.io/app:1.0.0-alpine\n")).1 (by decide)

set_option maxHeartbeats 1000000 in
/-- Claim C2: when the located value does not contain
prefix ++ currentVersion but the embedded-version detector finds some
embedded version in it, the update returns the version-mismatch error —
no new content is produced, so the target file stays unmodified — and
the error message contains the file, the declared path, the expected
string prefix ++ currentVersion and the actually-found embedded version
(the two `%q`-quoted strings are assumed printable ASCII without quote
or backslash, under which Go renders them verbatim between quotes). -/
theorem c2_version_mismatch (file path pfx cur new valueAtPath data : Str)
    (hc : containsL valueAtPath (pfx ++ cur) = false)
    (hemb : findEmbeddedVersion valueAtPath pfx ≠ [])
    (hplain1 : ∀ c ∈ pfx ++ cur, plainChar c = true)
    (hplain2 : ∀ c ∈ findEmbeddedVersion valueAtPath pfx, plainChar c = true) :
    ∃ msg, updateYAMLContent file path pfx cur new valueAtPath data = .error msg ∧
      file <:+: msg ∧ path <:+: msg ∧ (pfx ++ cur) <:+: msg ∧
      (findEmbeddedVersion valueAtPath pfx) <:+: msg := by
  refine ⟨versionMismatchMsg file path (pfx ++ cur)
    (findEmbeddedVersion valueAtPath pfx) valueAtPath, ?_, ?_, ?_, ?_, ?_⟩
  · unfold updateYAMLContent
    simp only []
    rw [if_neg (by simp [hc]), if_pos hemb]
  · unfold versionMismatchMsg
    repeat
      first
        | exact infixL_self_right _ _
        | apply infixL_append_right
  · unfold versionMismatchMsg
    repeat
      first
        | exact infixL_self_right _ _
        | apply infixL_append_right
  · unfold versionMismatchMsg
    repeat
      first
        | exact infixL_quote_right _ hplain1
        | apply infixL_append_right
  · unfold versionMismatchMsg
    repeat
      first
        | exact infixL_quote_right _ hplain2
        | apply infixL_append_right

/-- Claim C9: the empty address and every address beginning with `.` are
rejected with an error before any file content is changed (the model
returns an error for every locate oracle and every file content, and
produces no new content), and the leading-dot error names the corrected
form of the address — the address without its leading dot (its characters
assumed printable ASCII, under which `%q` renders it verbatim). -/
theorem c9_path_validation (locate : Str → Str → Option Str)
    (file path pfx cur new data : Str)
    (hbad : path = [] ∨ ∃ t, path = '.' :: t) :
    ∃ msg, updateYAMLFileModel locate file path pfx cur new data = .error msg ∧
      ∀ t, path = '.' :: t → (∀ c ∈ t, plainChar c = true) → t <:+: msg := by
  rcases hbad with rfl | ⟨t, rfl⟩
  · refine ⟨lit "invalid path " ++ [] ++ lit ": " ++ lit "path cannot be empty", ?_, ?_⟩
    · unfold updateYAMLFileModel convertToYAMLPath
      rw [if_pos rfl]
    · intro t ht
      exact absurd ht (by simp)
  · refine ⟨lit "invalid path " ++ ('.' :: t) ++ lit ": " ++
      (lit "path cannot start with '.' (got " ++ goQuote ('.' :: t) ++ lit ") - use " ++
        goQuote (('.' :: t).drop 1) ++ lit " instead"), ?_, ?_⟩
    · unfold updateYAMLFileModel convertToYAMLPath
      rw [if_neg (by simp), if_pos (by simp [startsWithL])]
    · intro t' ht' hplain
      rw [List.cons.injEq] at ht'
      obtain ⟨-, rfl⟩ := ht'
      rw [show ('.' :: t).drop 1 = t from rfl]
      refine infixL_append_left _ ?_
      refine infixL_append_right _ ?_
      exact infixL_quote_right _ hplain

/-- Witness for c9_path_validation at the concrete address `.version`. -/
theorem c9_path_validation_witness :
    ∃ msg, updateYAMLFileModel (fun _ _ => none) (lit "f") (lit ".version") []
      (lit "1.0.0") (lit "2.0.0") (lit "d") = .error msg ∧
      ∀ t, lit ".version" = '.' :: t → (∀ c ∈ t, plainChar c = true) → t <:+: msg :=
  c9_path_validation (fun _ _ => none) (lit "f") (lit ".version") [] (lit "1.0.0")
    (lit "2.0.0") (lit "d") (.inr ⟨lit "version", by decide⟩)

/-- Claim C10: a nonempty dot-path beginning with `$` passes
convertToYAMLPath's only checks (empty and leading dot) and is returned
unchanged as the YAML path query, so a caller-supplied `$`-prefixed
expression, a recursive-descent query like `$..key` included, is accepted
verbatim. -/
theorem c10_dollar_passthrough (t : Str) :
    convertToYAMLPath ('$' :: t) = .ok ('$' :: t) := by
  unfold convertToYAMLPath
  rw [if_neg (by simp), if_neg (by simp [startsWithL]), if_pos (by simp [startsWithL])]

/-- Witness for c2_version_mismatch at the concrete value
`registry.io/app:v1.0.0` with expected version v2.0.0. -/
theorem c2_version_mismatch_witness :
    ∃ msg, updateYAMLContent (lit "f") (lit "image") (lit "v") (lit "2.0.0") (lit "2.0.1")
      (lit "registry.io/app:v1.0.0") (lit "image: registry.io/app:v1.0.0\n")
      = .error msg ∧
      lit "f" <:+: msg ∧ lit "image" <:+: msg ∧ (lit "v" ++ lit "2.0.0") <:+: msg ∧
      (findEmbeddedVersion (lit "registry.io/app:v1.0.0") (lit "v")) <:+: msg :=
  c2_version_mismatch (lit "f") (lit "image") (lit "v") (lit "2.0.0") (lit "2.0.1")
    (lit "registry.io/app:v1.0.0") (lit "image: registry.io/app:v1.0.0\n")
    (by decide) (by decide) (by decide) (by decide)
